import Mathlib

set_option linter.unusedSectionVars false

/-!
Verification of the `fy` FROST threshold-signature library.

The development shallowly embeds the Go sources:

* `frost/sign.go`, `frost/dkg.go`, `frost/frost.go` — the FROST core.
  The core is generic over the `group.Group` interface, so it is embedded
  generically: the scalar field is an arbitrary `Field F`, and a point of the
  prime-order group is represented by its discrete logarithm (an element of
  `F`); under this representation the generator `G` is `1`, point addition is
  field addition, and scalar multiplication is field multiplication.  This is
  exactly the group structure the `group.Point` contract promises, and the
  core touches points only through `NewPoint` (identity), `Add`, `ScalarMult`,
  `Equal` and `Bytes`.
* `frost/hasher.go` — the `Hasher` interface and the SHA-256 hasher, embedded
  at the byte level over a bit-precise SHA-256 implementation.
* `bjj/bjj.go` — the Baby Jubjub adapter's scalar codec (`SetBytes` reduces a
  big-endian byte string modulo the subgroup order) and `HashToScalar`.
* the `session` package — `SigningSession`, `NewParticipant`, `Aggregate`.

Bytes are modelled as `List ℕ` with entries below 256.
-/

namespace Fy

/-! ## Byte strings and big-endian encoding -/

/-- Interpret a byte string as a big-endian natural number
(`math/big.Int.SetBytes`). -/
def natOfBytesBE (l : List ℕ) : ℕ :=
  l.foldl (fun acc b => acc * 256 + b) 0

/-- Fixed-width big-endian byte encoding of a natural number:
`beBytes k n` is the `k`-byte big-endian encoding of `n % 256^k`. -/
def beBytes : ℕ → ℕ → List ℕ
  | 0, _ => []
  | k + 1, n => beBytes k (n / 256) ++ [n % 256]

/-! ## SHA-256 (Go `crypto/sha256`)

A bit-precise SHA-256 over byte strings, used to embed the byte-level hash
computations of `bjj.BJJ.HashToScalar` and `frost.SHA256Hasher`. -/

def add32 (a b : ℕ) : ℕ := (a + b) % 4294967296

def rotr32 (n x : ℕ) : ℕ := (x >>> n ||| x <<< (32 - n)) % 4294967296

def shr32 (n x : ℕ) : ℕ := x >>> n

def sha256K : List ℕ :=
  [1116352408, 1899447441, 3049323471, 3921009573, 961987163, 1508970993,
   2453635748, 2870763221, 3624381080, 310598401, 607225278, 1426881987,
   1925078388, 2162078206, 2614888103, 3248222580, 3835390401, 4022224774,
   264347078, 604807628, 770255983, 1249150122, 1555081692, 1996064986,
   2554220882, 2821834349, 2952996808, 3210313671, 3336571891, 3584528711,
   113926993, 338241895, 666307205, 773529912, 1294757372, 1396182291,
   1695183700, 1986661051, 2177026350, 2456956037, 2730485921, 2820302411,
   3259730800, 3345764771, 3516065817, 3600352804, 4094571909, 275423344,
   430227734, 506948616, 659060556, 883997877, 958139571, 1322822218,
   1537002063, 1747873779, 1955562222, 2024104815, 2227730452, 2361852424,
   2428436474, 2756734187, 3204031479, 3329325298]

def sha256InitState : List ℕ :=
  [1779033703, 3144134277, 1013904242, 2773480762,
   1359893119, 2600822924, 528734635, 1541459225]

/-- SHA-256 padding: append `128`, zero bytes, and the 64-bit big-endian bit
length, reaching a multiple of 64 bytes. -/
def sha256Pad (msg : List ℕ) : List ℕ :=
  msg ++ [128] ++ List.replicate ((119 - msg.length % 64) % 64) 0
    ++ beBytes 8 (msg.length * 8)

/-- The 64-entry message schedule of one 64-byte block. -/
def sha256Schedule (block : List ℕ) : List ℕ :=
  let w16 := (List.range 16).map fun i =>
    natOfBytesBE ((block.drop (4 * i)).take 4)
  (List.range 48).foldl
    (fun w _ =>
      let n := w.length
      let s0 :=
        rotr32 7 (w.getD (n - 15) 0) ^^^ rotr32 18 (w.getD (n - 15) 0) ^^^
          shr32 3 (w.getD (n - 15) 0)
      let s1 :=
        rotr32 17 (w.getD (n - 2) 0) ^^^ rotr32 19 (w.getD (n - 2) 0) ^^^
          shr32 10 (w.getD (n - 2) 0)
      w ++ [add32 (add32 (w.getD (n - 16) 0) s0) (add32 (w.getD (n - 7) 0) s1)])
    w16

/-- One round of the SHA-256 compression function on the working variables
`[a, b, c, d, e, f, g, h]`. -/
def sha256Round (st : List ℕ) (k w : ℕ) : List ℕ :=
  let a := st.getD 0 0
  let b := st.getD 1 0
  let c := st.getD 2 0
  let d := st.getD 3 0
  let e := st.getD 4 0
  let f := st.getD 5 0
  let g := st.getD 6 0
  let h := st.getD 7 0
  let S1 := rotr32 6 e ^^^ rotr32 11 e ^^^ rotr32 25 e
  let ch := e &&& f ^^^ (4294967295 - e) &&& g
  let temp1 := add32 (add32 (add32 h S1) (add32 ch k)) w
  let S0 := rotr32 2 a ^^^ rotr32 13 a ^^^ rotr32 22 a
  let maj := a &&& b ^^^ a &&& c ^^^ b &&& c
  let temp2 := add32 S0 maj
  [add32 temp1 temp2, a, b, c, add32 d temp1, e, f, g]

/-- Compress one 64-byte block into the running state. -/
def sha256Compress (st : List ℕ) (block : List ℕ) : List ℕ :=
  let w := sha256Schedule block
  let out := (List.range 64).foldl
    (fun acc t => sha256Round acc (sha256K.getD t 0) (w.getD t 0)) st
  (List.range 8).map fun i => add32 (st.getD i 0) (out.getD i 0)

/-- SHA-256 digest (32 bytes) of a byte string. -/
def sha256 (msg : List ℕ) : List ℕ :=
  let padded := sha256Pad msg
  let blocks := (List.range (padded.length / 64)).map fun i =>
    (padded.drop (64 * i)).take 64
  ((blocks.foldl sha256Compress sha256InitState).map (beBytes 4)).flatten

/-! ## Baby Jubjub scalars (`bjj/bjj.go`)

`bjj.Scalar` is a `big.Int` reduced modulo `curveOrder`, the order of the
prime-order subgroup of Baby Jubjub (gnark-crypto's
`twistededwards.GetEdwardsCurve().Order`).  `SetBytes` interprets a byte
string big-endian and reduces modulo the order. -/

/-- The Baby Jubjub prime subgroup order (`curveOrder` in `bjj/bjj.go`). -/
def qBJJ : ℕ :=
  2736030358979909402780800718157159386076813972158567259200215660948447373041

/-- `bjj.Scalar`: an integer modulo the curve order. -/
abbrev BJJScalar := ZMod qBJJ

instance : NeZero qBJJ := ⟨by decide⟩

/-- `bjj.Scalar.SetBytes`: big-endian decode, then reduce mod `curveOrder`. -/
def bjjSetBytes (data : List ℕ) : BJJScalar := (natOfBytesBE data : BJJScalar)

/-- `bjj.Scalar.Bytes`: the value as 32 bytes, big-endian, zero-padded. -/
def bjjScalarBytes (s : BJJScalar) : List ℕ := beBytes 32 s.val

/-- `bjj.BJJ.HashToScalar`: SHA-256 of the concatenated inputs, decoded with
`SetBytes` (big-endian, reduced mod the order).  It never returns an error. -/
def bjjHashToScalar (data : List (List ℕ)) : BJJScalar :=
  bjjSetBytes (sha256 data.flatten)

/-! ## The SHA-256 hasher (`frost/hasher.go`)

`SHA256Hasher` hashes the concatenation of its inputs with SHA-256 and
decodes the 32-byte digest big-endian, reduced mod the group order
(`g.NewScalar().SetBytes(hash)`).  `H1`, `H3`, `H4`, `H5` prepend the ASCII
tags `"rho"`, `"nonce"`, `"msg"`, `"com"`; `H2` prepends no tag. -/

/-- `SHA256Hasher.H1` (binding factor): scalar of
`SHA-256("rho" || msg || encCommitList || signerID)`. -/
def sha256HasherH1 (msg encCommitList signerID : List ℕ) : BJJScalar :=
  bjjSetBytes (sha256 ([114, 104, 111] ++ msg ++ encCommitList ++ signerID))

/-- `SHA256Hasher.H2` (challenge): scalar of `SHA-256(R || Y || msg)`. -/
def sha256HasherH2 (R Y msg : List ℕ) : BJJScalar :=
  bjjSetBytes (sha256 (R ++ Y ++ msg))

/-- `SHA256Hasher.H3` (nonce): scalar of
`SHA-256("nonce" || seed || rho || msg)`. -/
def sha256HasherH3 (seed rho msg : List ℕ) : BJJScalar :=
  bjjSetBytes (sha256 ([110, 111, 110, 99, 101] ++ seed ++ rho ++ msg))

/-- `SHA256Hasher.H4` (message hash): `SHA-256("msg" || msg)`. -/
def sha256HasherH4 (msg : List ℕ) : List ℕ :=
  sha256 ([109, 115, 103] ++ msg)

/-- `SHA256Hasher.H5` (commitment-list hash): `SHA-256("com" || enc)`. -/
def sha256HasherH5 (encCommitList : List ℕ) : List ℕ :=
  sha256 ([99, 111, 109] ++ encCommitList)

/-! ## `frost.scalarFromInt` over the Baby Jubjub scalars

`scalarFromInt` writes `byte(n)` (the low 8 bits of the Go `int`) into the
last position of a 32-byte zero buffer and decodes it with `SetBytes`.
For a Go `int` value `id : ℤ`, `byte(id) = (id % 256).toNat`. -/

def frostScalarFromInt (id : ℤ) : BJJScalar :=
  bjjSetBytes (List.replicate 31 0 ++ [(id % 256).toNat])

/-! ## The FROST core (`frost/frost.go`, `frost/dkg.go`, `frost/sign.go`)

The core is generic over the `group.Group` interface.  We embed it over an
arbitrary scalar field `F`, representing each point of the prime-order group
by its discrete logarithm: `k · G ↦ k`.  Under this representation the
interface operations become: `NewPoint()` (the identity) is `0`,
`Generator()` is `1`, `Point.Add` is `+`, and `Point.ScalarMult s p` is
`s * p`.  `Scalar.Bytes`, `Point.Bytes` and `Group.HashToScalar` are carried
in a `GroupModel` record; the scalar codec is injective as the canonical
encoding of the adapter is (`bjjScalarBytes_injective`). -/

section Core

variable {F : Type} [CommRing F] [Inv F] [DecidableEq F]

/-- The adapter-supplied operations of `group.Group` that the FROST core
uses beyond the field/group arithmetic, under the discrete-log point
representation.  `hashToScalar` may fail, as in the interface. -/
structure GroupModel (F : Type) where
  sbytes : F → List ℕ
  pbytes : F → List ℕ
  hashToScalar : List (List ℕ) → Option F

/-- `group.Point` generator `G` under the discrete-log representation. -/
def pointGen : F := 1

/-- `group.Group.NewPoint`: the identity point. -/
def pointIdentity : F := 0

/-- `group.Point.Add`. -/
def pointAdd (a b : F) : F := a + b

/-- `group.Point.ScalarMult`. -/
def pointScalarMult (s p : F) : F := s * p

/-- The `frost.Hasher` interface (`frost/hasher.go`): five domain-separated
hash functions.  `H1`–`H3` return scalars, `H4`/`H5` bytes; neither concrete
implementation can fail. -/
structure HasherModel (F : Type) where
  h1 : List ℕ → List ℕ → List ℕ → F
  h2 : List ℕ → List ℕ → List ℕ → F
  h3 : List ℕ → List ℕ → List ℕ → F
  h4 : List ℕ → List ℕ
  h5 : List ℕ → List ℕ

/-- The `frost.FROST` instance: group, hasher, and threshold parameters
(from `NewWithHasher`). -/
structure FROST (F : Type) where
  gm : GroupModel F
  hasher : HasherModel F
  threshold : ℤ
  total : ℤ

/-- `frost.NewWithHasher`: validates `threshold ≥ 2` and
`total ≥ threshold`. -/
def frostNewWithHasher (gm : GroupModel F) (hasher : HasherModel F)
    (threshold total : ℤ) : Except String (FROST F) :=
  if threshold < 2 then .error "threshold must be at least 2"
  else if total < threshold then .error "total must be >= threshold"
  else .ok ⟨gm, hasher, threshold, total⟩

/-- `frost.scalarFromInt`: a 32-byte zero buffer with `byte(n)` in the last
position, decoded big-endian; the resulting scalar is `n % 256`
(`natOfBytesBE_id_buffer`; at the Baby Jubjub level this is
`frostScalarFromInt`). -/
def scalarFromInt (n : ℕ) : F := ((n % 256 : ℕ) : F)

/-- `frost.evalPolynomial` (Horner): the loop sets `result` to the last
coefficient and folds `result = result * x + coeffs[i]` downwards, which is
exactly this `foldr`; on `[]` the Go code would panic (index out of range),
the model returns `0`. -/
def evalPolynomial (coeffs : List F) (x : F) : F :=
  coeffs.foldr (fun a acc => acc * x + a) 0

/-- `frost.Round1Data`. -/
structure Round1Data (F : Type) where
  id : F
  commitments : List F
  deriving DecidableEq

/-- `frost.Round1PrivateData`. -/
structure Round1PrivateData (F : Type) where
  fromID : F
  toID : F
  share : F
  deriving DecidableEq

/-- `frost.Participant` (DKG state).  The Go `map[string]Scalar` of received
shares is modelled as an association list in insertion order. -/
@[ext]
structure Participant (F : Type) where
  id : F
  coefficients : List F
  commitments : List F
  receivedShares : List (List ℕ × F)
  deriving DecidableEq

/-- Go map update `m[k] = v`: overwrite an existing entry, else append. -/
def mapStore (m : List (List ℕ × F)) (k : List ℕ) (v : F) :
    List (List ℕ × F) :=
  if m.any (fun e => e.1 = k) then
    m.map (fun e => if e.1 = k then (k, v) else e)
  else m ++ [(k, v)]

/-- `FROST.NewParticipant` with the `threshold` freshly sampled random
coefficients passed in for the entropy source (`RandomScalar` reads the
caller's reader; its failure aborts before any state exists). -/
def newParticipant (idn : ℕ) (coeffs : List F) : Participant F :=
  { id := scalarFromInt idn
    coefficients := coeffs
    commitments := coeffs.map fun c => pointScalarMult c pointGen
    receivedShares := [] }

/-- `Participant.Round1Broadcast`. -/
def round1Broadcast (p : Participant F) : Round1Data F :=
  ⟨p.id, p.commitments⟩

/-- `FROST.Round1PrivateSend`. -/
def round1PrivateSend (p : Participant F) (recipientID : ℕ) :
    Round1PrivateData F :=
  let toID : F := scalarFromInt recipientID
  ⟨p.id, toID, evalPolynomial p.coefficients toID⟩

/-- The Feldman verification loop of `Round2ReceiveShare`: starting from the
identity point and `xPower = 1`, add `xPower · C_i` and multiply `xPower` by
`ToID` for each commitment. -/
def feldmanRhs (senderCommitments : List F) (toID : F) : F :=
  (senderCommitments.foldl
    (fun (st : F × F) commit =>
      (pointAdd st.1 (pointScalarMult st.2 commit), st.2 * toID))
    (pointIdentity, scalarFromInt 1)).1

/-- `FROST.Round2ReceiveShare`: check `share · G = Σ ToID^i · C_i`; store the
share keyed by the sender's ID bytes on success, fail without mutating the
state otherwise. -/
def round2ReceiveShare (gm : GroupModel F) (p : Participant F)
    (data : Round1PrivateData F) (senderCommitments : List F) :
    Except String (Participant F) :=
  let lhs := pointScalarMult data.share pointGen
  let rhs := feldmanRhs senderCommitments data.toID
  if lhs = rhs then
    .ok { p with
      receivedShares := mapStore p.receivedShares (gm.sbytes data.fromID)
        data.share }
  else .error "invalid share from participant"

/-- `frost.KeyShare`. -/
structure KeyShare (F : Type) where
  id : F
  secretKey : F
  publicKey : F
  groupKey : F
  deriving DecidableEq

/-- `FROST.Finalize`: secret key is the own polynomial evaluated at the own
ID plus every received share; the group key is the sum of the constant-term
commitments of all broadcasts.  The Go map iteration order is arbitrary, the
sum is order-independent; `Commitments[0]` on an empty list would panic in
Go, the model uses the identity point (claims only involve `t ≥ 2`).
`Finalize` always returns a `nil` error. -/
def finalize (p : Participant F) (allBroadcasts : List (Round1Data F)) :
    KeyShare F :=
  let secretKey := p.receivedShares.foldl (fun acc e => acc + e.2)
    (evalPolynomial p.coefficients p.id)
  { id := p.id
    secretKey := secretKey
    publicKey := pointScalarMult secretKey pointGen
    groupKey := allBroadcasts.foldl
      (fun acc b => pointAdd acc (b.commitments.headD pointIdentity))
      pointIdentity }

/-- `frost.SigningNonce`. -/
structure SigningNonce (F : Type) where
  id : F
  d : F
  e : F
  deriving DecidableEq

/-- `frost.SigningCommitment`. -/
structure SigningCommitment (F : Type) where
  id : F
  hidingPoint : F
  bindingPoint : F
  deriving DecidableEq

/-- `frost.SignatureShare`. -/
structure SignatureShare (F : Type) where
  id : F
  z : F
  deriving DecidableEq

/-- `frost.Signature`. -/
structure Signature (F : Type) where
  R : F
  z : F
  deriving DecidableEq

/-- `FROST.SignRound1` with the two freshly sampled random scalars `d`, `e`
passed in for the entropy source. -/
def signRound1 (share : KeyShare F) (d e : F) :
    SigningNonce F × SigningCommitment F :=
  (⟨share.id, d, e⟩,
   ⟨share.id, pointScalarMult d pointGen, pointScalarMult e pointGen⟩)

/-- The commitment-list bytes built by `computeBindingFactors`:
`ID || HidingPoint || BindingPoint` per commitment, concatenated in list
order. -/
def encodeCommitmentList (gm : GroupModel F)
    (commitments : List (SigningCommitment F)) : List ℕ :=
  commitments.foldl
    (fun acc c =>
      acc ++ gm.sbytes c.id ++ gm.pbytes c.hidingPoint ++
        gm.pbytes c.bindingPoint)
    []

/-- `FROST.computeBindingFactors`: one scalar per commitment, keyed by the
signer's ID bytes, `rho = group.HashToScalar(message, commBytes, ID)`.
Note the source calls the group's `HashToScalar`, not the configured
hasher's `H1`, and discards the hash error (`rho, _ := ...`); the discarded
failure is modelled by `getD 0` (the Baby Jubjub hash never fails). -/
def computeBindingFactors (gm : GroupModel F) (message : List ℕ)
    (commitments : List (SigningCommitment F)) : List (List ℕ × F) :=
  let commBytes := encodeCommitmentList gm commitments
  commitments.map fun c =>
    (gm.sbytes c.id,
      (gm.hashToScalar [message, commBytes, gm.sbytes c.id]).getD 0)

/-- The group-commitment loop `R = Σ (D_i + rho_i · E_i)` that appears
verbatim in both `SignRound2` and `Aggregate`, with `rho_i` looked up from
the binding-factor map by ID bytes (a missing key yields Go's `nil`,
modelled by `getD 0`; it cannot occur since the map is built from the same
list). -/
def groupCommitmentWith (gm : GroupModel F)
    (bindingFactors : List (List ℕ × F))
    (commitments : List (SigningCommitment F)) : F :=
  commitments.foldl
    (fun R c =>
      let rho := (bindingFactors.lookup (gm.sbytes c.id)).getD 0
      pointAdd R (pointAdd c.hidingPoint (pointScalarMult rho c.bindingPoint)))
    pointIdentity

/-- `FROST.lagrangeCoefficient`: one pass over the commitment list skipping
the signer itself, multiplying `num` by `ID_j` and `den` by `ID_j − ID_i`
(split here into two folds over the same list), then `num · den⁻¹`.  The
source discards `Invert`'s zero-denominator error (duplicate signer IDs, a
caller bug per the spec); the model's field inverse sends `0` to `0`. -/
def lagrangeCoefficient (id : F)
    (commitments : List (SigningCommitment F)) : F :=
  let num := commitments.foldl
    (fun acc c => if c.id = id then acc else acc * c.id) (scalarFromInt 1)
  let den := commitments.foldl
    (fun acc c => if c.id = id then acc else acc * (c.id - id))
    (scalarFromInt 1)
  num * den⁻¹

/-- `FROST.SignRound2`.  The challenge is
`group.HashToScalar(R.Bytes, GroupKey.Bytes, message)` — again the group
hash, not `hasher.H2`; its error is propagated. -/
def signRound2 (f : FROST F) (share : KeyShare F) (nonce : SigningNonce F)
    (message : List ℕ) (commitments : List (SigningCommitment F)) :
    Except String (SignatureShare F) :=
  let bindingFactors := computeBindingFactors f.gm message commitments
  let R := groupCommitmentWith f.gm bindingFactors commitments
  match f.gm.hashToScalar
    [f.gm.pbytes R, f.gm.pbytes share.groupKey, message] with
  | none => .error "hash-to-scalar failed"
  | some c =>
    let lambda := lagrangeCoefficient share.id commitments
    let myRho := (bindingFactors.lookup (f.gm.sbytes share.id)).getD 0
    .ok ⟨share.id, nonce.d + myRho * nonce.e + lambda * share.secretKey * c⟩

/-- `FROST.Aggregate`: recompute `R`, sum the shares' `z` values starting
from `NewScalar()` (zero).  The source always returns a `nil` error. -/
def aggregate (f : FROST F) (message : List ℕ)
    (commitments : List (SigningCommitment F))
    (shares : List (SignatureShare F)) : Signature F :=
  let bindingFactors := computeBindingFactors f.gm message commitments
  let R := groupCommitmentWith f.gm bindingFactors commitments
  let z := shares.foldl (fun acc s => acc + s.z) 0
  ⟨R, z⟩

/-- `FROST.Verify`: challenge from the group hash over
`(R.Bytes, GroupKey.Bytes, message)`; reject on hash failure; accept iff
`z · G = R + c · Y`.  Boolean-valued: it cannot error or retry. -/
def verify (f : FROST F) (message : List ℕ) (sig : Signature F)
    (groupKey : F) : Bool :=
  match f.gm.hashToScalar
    [f.gm.pbytes sig.R, f.gm.pbytes groupKey, message] with
  | none => false
  | some c =>
    let lhs := pointScalarMult sig.z pointGen
    let rhs := pointAdd sig.R (pointScalarMult c groupKey)
    decide (lhs = rhs)

end Core

/-! ## The session layer (`session` package)

`SigningSession` wraps one signing operation; its `Sign` is serialized with a
mutex and guarded by a `consumed` flag.  We model the sequential semantics:
`sign` threads the session state explicitly and returns the updated
session. -/

section Session

variable {F : Type} [CommRing F] [Inv F] [DecidableEq F]

/-- `session.SigningSession`.  The nonce becomes `none` once `zeroNonces`
has run (`s.nonce = nil`). -/
structure SigningSession (F : Type) where
  frost : FROST F
  keyShare : KeyShare F
  message : List ℕ
  nonce : Option (SigningNonce F)
  commitment : SigningCommitment F
  consumed : Bool

/-- The success path of `Participant.NewSigningSession` (key share present,
entropy read succeeded with scalars `d`, `e`): runs `SignRound1` and stores
the message (the Go defensive copy is the identity on values). -/
def newSigningSession (f : FROST F) (ks : KeyShare F) (message : List ℕ)
    (d e : F) : SigningSession F :=
  let nc := signRound1 ks d e
  { frost := f, keyShare := ks, message := message, nonce := some nc.1
    commitment := nc.2, consumed := false }

/-- `SigningSession.Sign`: fail if already consumed; otherwise set the
`consumed` flag first, then check that the own commitment occurs in the
list, then run `SignRound2`; the deferred `zeroNonces` clears the nonce on
every non-consumed path before returning.  A `nil` nonce with
`consumed = false` cannot arise from the constructor; there the Go code
would dereference `nil`, the model returns an error. -/
def SigningSession.sign (s : SigningSession F)
    (allCommitments : List (SigningCommitment F)) :
    Except String (SignatureShare F) × SigningSession F :=
  if s.consumed then
    (.error "session already consumed: nonce reuse prevented", s)
  else
    let s1 := { s with consumed := true }
    let result : Except String (SignatureShare F) :=
      if allCommitments.any (fun c => c.id = s1.commitment.id) then
        match s1.nonce with
        | some nonce =>
          signRound2 s1.frost s1.keyShare nonce s1.message allCommitments
        | none => .error "nonce missing"
      else .error "own commitment not found in commitment list"
    (result, { s1 with nonce := none })

/-- `SigningSession.IsConsumed`. -/
def SigningSession.isConsumed (s : SigningSession F) : Bool := s.consumed

/-- `session.Aggregate`: validate that the share list is non-empty, the
commitment list is non-empty, and the lengths match; then call the core
`Aggregate` (whose error is always `nil`). -/
def sessionAggregate (f : FROST F) (message : List ℕ)
    (commitments : List (SigningCommitment F))
    (shares : List (SignatureShare F)) : Except String (Signature F) :=
  if shares.length = 0 then .error "no signature shares provided"
  else if commitments.length = 0 then .error "no commitments provided"
  else if shares.length ≠ commitments.length then
    .error "number of shares must match number of commitments"
  else .ok (aggregate f message commitments shares)

/-- `session.Participant` as far as construction is concerned. -/
structure SessionParticipant (F : Type) where
  id : ℤ
  frost : FROST F

/-- `session.NewParticipantWithHasher`: reject `id < 1 || id > total`, then
build the FROST instance (whose own validation may fail). -/
def sessionNewParticipantWithHasher (gm : GroupModel F)
    (threshold total id : ℤ) (hasher : HasherModel F) :
    Except String (SessionParticipant F) :=
  if id < 1 ∨ id > total then
    .error "participant ID must be between 1 and total, got id"
  else
    match frostNewWithHasher gm hasher threshold total with
    | .error e => .error ("failed to create FROST instance: " ++ e)
    | .ok f => .ok ⟨id, f⟩

end Session

/-! ## The Baby Jubjub instantiation

The `GroupModel` of the `bjj` adapter under the discrete-log point
representation: scalar bytes are the canonical 32-byte big-endian encoding;
point bytes are a 32-byte injective encoding standing in for the compressed
point codec; the group hash is `bjj.BJJ.HashToScalar`, which never fails. -/

def bjjGroupModel : GroupModel BJJScalar where
  sbytes := bjjScalarBytes
  pbytes := bjjScalarBytes
  hashToScalar := fun data => some (bjjHashToScalar data)

/-- `frost.SHA256Hasher` as a `HasherModel`. -/
def sha256HasherModel : HasherModel BJJScalar where
  h1 := sha256HasherH1
  h2 := sha256HasherH2
  h3 := sha256HasherH3
  h4 := sha256HasherH4
  h5 := sha256HasherH5

/-- `frost.New` over the Baby Jubjub group: `NewWithHasher` with the
default `SHA256Hasher`. -/
def frostNew (threshold total : ℤ) : Except String (FROST BJJScalar) :=
  frostNewWithHasher bjjGroupModel sha256HasherModel threshold total

/-- `session.NewParticipant` over the Baby Jubjub group: validates the id,
then calls `frost.New`. -/
def sessionNewParticipant (threshold total id : ℤ) :
    Except String (SessionParticipant BJJScalar) :=
  sessionNewParticipantWithHasher bjjGroupModel threshold total id
    sha256HasherModel

/-! ## A small concrete model for witnesses

The core is generic over the group; witnesses evaluate it on the field with
101 elements with single-byte scalar encodings and a trivial total hash. -/

instance fact_prime_101 : Fact (Nat.Prime 101) := ⟨by norm_num⟩

/-- A concrete `GroupModel` over `ZMod 101` used to evaluate the generic
core on closed inputs. -/
def gm101 : GroupModel (ZMod 101) where
  sbytes := fun s => [s.val]
  pbytes := fun s => [s.val]
  hashToScalar := fun data => some ((data.flatten.sum : ℕ) : ZMod 101)

/-- A vacuous hasher over `ZMod 101` (the core never calls it). -/
def hasher101 : HasherModel (ZMod 101) where
  h1 := fun _ _ _ => 0
  h2 := fun _ _ _ => 0
  h3 := fun _ _ _ => 0
  h4 := fun _ => []
  h5 := fun _ => []

/-- A concrete FROST instance over `ZMod 101` with `t = 2`, `n = 3`. -/
def frost101 : FROST (ZMod 101) :=
  ⟨gm101, hasher101, 2, 3⟩

/-- The encoded commitment list `ID || D || E` of the single concrete
commitment `(ID = 1, D = 2, E = 3)` used to exhibit the binding-factor
divergence. -/
def encC4 : List ℕ :=
  bjjScalarBytes 1 ++ bjjScalarBytes 2 ++ bjjScalarBytes 3

/-! ## The honest protocol runs

These definitions compose the embedded source operations exactly as the
repository's own tests (`frost_test.go`, `TestDKGAndSign`) and README do: an
honest DKG among participants `ps = [(id₁, coeffs₁), …, (idₙ, coeffsₙ)]`
(each participant's freshly sampled polynomial coefficients given as input),
followed by a signing run of a selected subset. -/

section Harness

variable {F : Type} [CommRing F] [Inv F] [DecidableEq F]

/-- The DKG participants created by `NewParticipant`. -/
def honestParticipants (ps : List (ℕ × List F)) : List (Participant F) :=
  ps.map fun pr => newParticipant pr.1 pr.2

/-- The round-1 broadcasts of all participants. -/
def honestBroadcasts (ps : List (ℕ × List F)) : List (Round1Data F) :=
  (honestParticipants ps).map round1Broadcast

/-- Participant `i` receives and verifies (`Round2ReceiveShare`) the private
share `Round1PrivateSend` of every other participant `j ≠ i`, in order. -/
def honestReceiveRun (gm : GroupModel F) (ps : List (ℕ × List F)) (i : ℕ) :
    Except String (Participant F) :=
  let parts := honestParticipants ps
  let base := parts.getD i (newParticipant 0 [])
  ((List.range ps.length).filter fun j => decide (j ≠ i)).foldlM
    (fun st j =>
      round2ReceiveShare gm st
        (round1PrivateSend (parts.getD j (newParticipant 0 []))
          (ps.getD i (0, [])).1)
        (parts.getD j (newParticipant 0 [])).commitments)
    base

/-- The full honest DKG: every participant receives all `n − 1` shares and
finalizes against all `n` broadcasts. -/
def honestKeyShares (gm : GroupModel F) (ps : List (ℕ × List F)) :
    Except String (List (KeyShare F)) :=
  (List.range ps.length).mapM fun i => do
    let p ← honestReceiveRun gm ps i
    pure (finalize p (honestBroadcasts ps))

/-- The DKG state of participant `i` after honestly receiving every other
participant's share: the verified shares sit in the association list in
sender order (this is what `honestReceiveRun` computes; see
`honestReceiveRun_eq`). -/
def honestFinalParticipant (gm : GroupModel F) (ps : List (ℕ × List F))
    (i : ℕ) : Participant F :=
  { newParticipant (ps.getD i (0, [])).1 (ps.getD i (0, [])).2 with
    receivedShares :=
      ((List.range ps.length).filter fun j => decide (j ≠ i)).map fun j =>
        (gm.sbytes (scalarFromInt (ps.getD j (0, [])).1 : F),
          evalPolynomial (ps.getD j (0, [])).2
            (scalarFromInt (ps.getD i (0, [])).1)) }

/-- The key-share list the honest DKG produces. -/
def honestKeyShareList (gm : GroupModel F) (ps : List (ℕ × List F)) :
    List (KeyShare F) :=
  (List.range ps.length).map fun i =>
    finalize (honestFinalParticipant gm ps i) (honestBroadcasts ps)

/-- The group public key of the honest DKG: `(Σ_s a₀_s) · G`. -/
def groupKeyOf (ps : List (ℕ × List F)) : F :=
  pointScalarMult ((ps.map fun pr => pr.2.headD 0).sum) pointGen

/-- The key shares of the selected signer subset. -/
def selectedShares (gm : GroupModel F) (ps : List (ℕ × List F))
    (sel : List ℕ) : List (KeyShare F) :=
  sel.map fun k => (honestKeyShareList gm ps).getD k ⟨0, 0, 0, 0⟩

/-- The signing commitments of the signers (`SignRound1` with the sampled
nonces `(d, e)` given as input). -/
def signCommitments (selected : List (KeyShare F)) (nonces : List (F × F)) :
    List (SigningCommitment F) :=
  List.zipWith (fun ks n => (signRound1 ks n.1 n.2).2) selected nonces

/-- The recomputation of the group commitment `R` from scratch, as both
`SignRound2` and `Aggregate` do. -/
def groupCommitment (gm : GroupModel F) (message : List ℕ)
    (commitments : List (SigningCommitment F)) : F :=
  groupCommitmentWith gm (computeBindingFactors gm message commitments)
    commitments

/-- The signing run of the selected signers: every signer runs `SignRound2`
over the same commitment list in the same order, and the shares are
aggregated. -/
def signRun (f : FROST F) (message : List ℕ) (selected : List (KeyShare F))
    (nonces : List (F × F)) : Except String (Signature F) := do
  let comms := signCommitments selected nonces
  let shares ← (List.zip selected nonces).mapM fun pr =>
    signRound2 f pr.1 (signRound1 pr.1 pr.2.1 pr.2.2).1 message comms
  pure (aggregate f message comms shares)

/-- The binding factor stored by `computeBindingFactors` for the signer
whose ID bytes are `k`. -/
def rhoOf (gm : GroupModel F) (message : List ℕ)
    (comms : List (SigningCommitment F)) (k : List ℕ) : F :=
  (gm.hashToScalar [message, encodeCommitmentList gm comms, k]).getD 0

/-- The polynomial with the given coefficient list (`a₀ + a₁·X + …`), a
proof-side object used to reason about `evalPolynomial`. -/
noncomputable def polyOf (l : List F) : Polynomial F :=
  l.foldr (fun a p => Polynomial.C a + p * Polynomial.X) 0

/-- The combined DKG secret polynomial `P = Σ_s p_s`, a proof-side
object. -/
noncomputable def polyTotal (ps : List (ℕ × List F)) : Polynomial F :=
  (ps.map fun pr => polyOf pr.2).sum

end Harness

/-! ## Byte-level and codec lemmas -/

theorem natOfBytesBE_append (l₁ l₂ : List ℕ) :
    natOfBytesBE (l₁ ++ l₂) =
      natOfBytesBE l₁ * 256 ^ l₂.length + natOfBytesBE l₂ := by
  suffices h : ∀ (l : List ℕ) (a : ℕ),
      l.foldl (fun acc b => acc * 256 + b) a =
        a * 256 ^ l.length + l.foldl (fun acc b => acc * 256 + b) 0 by
    unfold natOfBytesBE
    rw [List.foldl_append, h l₂ (l₁.foldl _ 0)]
  intro l
  induction l with
  | nil => simp
  | cons b t ih =>
    intro a
    rw [List.foldl_cons, List.foldl_cons, ih (a * 256 + b), ih (0 * 256 + b),
      List.length_cons]
    ring

theorem natOfBytesBE_beBytes (k n : ℕ) :
    natOfBytesBE (beBytes k n) = n % 256 ^ k := by
  induction k generalizing n with
  | zero => simp [beBytes, natOfBytesBE, Nat.mod_one]
  | succ k ih =>
    rw [beBytes, natOfBytesBE_append, ih]
    show n / 256 % 256 ^ k * 256 ^ 1 + natOfBytesBE [n % 256] = n % 256 ^ (k + 1)
    have h : natOfBytesBE [n % 256] = n % 256 := by
      simp [natOfBytesBE]
    have h2 : (256 : ℕ) ^ (k + 1) = 256 * 256 ^ k := by ring
    rw [h, pow_one, h2, Nat.mod_mul]
    ring

theorem beBytes_injOn {k a b : ℕ} (ha : a < 256 ^ k) (hb : b < 256 ^ k)
    (h : beBytes k a = beBytes k b) : a = b := by
  have := congrArg natOfBytesBE h
  rwa [natOfBytesBE_beBytes, natOfBytesBE_beBytes, Nat.mod_eq_of_lt ha,
    Nat.mod_eq_of_lt hb] at this

set_option maxRecDepth 100000 in
/-- Sanity check against the standard test vector: SHA-256 of `"abc"`. -/
theorem sha256_abc :
    sha256 [97, 98, 99] =
      [186, 120, 22, 191, 143, 1, 207, 234,
       65, 65, 64, 222, 93, 174, 34, 35,
       176, 3, 97, 163, 150, 23, 122, 156,
       180, 16, 255, 97, 242, 0, 21, 173] := by
  decide

theorem bjjScalarBytes_injective : Function.Injective bjjScalarBytes := by
  intro a b h
  have hq : qBJJ < 256 ^ 32 := by decide
  have ha : a.val < 256 ^ 32 := lt_trans (ZMod.val_lt a) hq
  have hb : b.val < 256 ^ 32 := lt_trans (ZMod.val_lt b) hq
  exact ZMod.val_injective qBJJ (beBytes_injOn ha hb h)

theorem natOfBytesBE_replicate_zero (k : ℕ) :
    natOfBytesBE (List.replicate k 0) = 0 := by
  induction k with
  | zero => rfl
  | succ k ih =>
    have h : List.replicate (k + 1) 0 = List.replicate k 0 ++ [0] := by
      rw [← List.replicate_succ']
    rw [h, natOfBytesBE_append, ih]
    simp [natOfBytesBE]

theorem natOfBytesBE_id_buffer (b : ℕ) :
    natOfBytesBE (List.replicate 31 0 ++ [b]) = b := by
  rw [natOfBytesBE_append, natOfBytesBE_replicate_zero]
  simp [natOfBytesBE]

/-! ## Fold, list and polynomial lemmas -/

section Lemmas

variable {F : Type} [CommRing F] [Inv F] [DecidableEq F]

theorem foldl_add_eq_sum {α : Type} (g : α → F) (l : List α) (a : F) :
    l.foldl (fun acc x => acc + g x) a = a + (l.map g).sum := by
  induction l generalizing a with
  | nil => simp
  | cons x t ih =>
    rw [List.foldl_cons, ih, List.map_cons, List.sum_cons]
    ring

theorem zipWith_eq_map_zip {α β γ : Type} (f : α → β → γ) (l₁ : List α)
    (l₂ : List β) :
    List.zipWith f l₁ l₂ = (List.zip l₁ l₂).map fun p => f p.1 p.2 := by
  induction l₁ generalizing l₂ with
  | nil => simp
  | cons a t ih =>
    cases l₂ with
    | nil => simp
    | cons b t₂ => simp [ih]

theorem getD_map_lt {α β : Type} (f : α → β) (l : List α) (j : ℕ)
    (hj : j < l.length) (d₀ : β) (d₁ : α) :
    (l.map f).getD j d₀ = f (l.getD j d₁) := by
  rw [List.getD_eq_getElem?_getD, List.getD_eq_getElem?_getD,
    List.getElem?_map, List.getElem?_eq_getElem hj]
  simp

theorem scalarFromInt_one : (scalarFromInt 1 : F) = 1 := by
  simp [scalarFromInt]

theorem mapStore_fresh (m : List (List ℕ × F)) (k : List ℕ) (v : F)
    (h : ∀ e ∈ m, e.1 ≠ k) : mapStore m k v = m ++ [(k, v)] := by
  have hnot : ¬(m.any (fun e => decide (e.1 = k)) = true) := by
    intro hcontra
    rw [List.any_eq_true] at hcontra
    obtain ⟨e, he, hek⟩ := hcontra
    exact h e he (of_decide_eq_true hek)
  unfold mapStore
  rw [if_neg hnot]

theorem mapM_ok_except {α β : Type} (g : α → Except String β) (h : α → β)
    (l : List α) (hok : ∀ x ∈ l, g x = .ok (h x)) :
    l.mapM g = .ok (l.map h) := by
  induction l with
  | nil => rfl
  | cons x t ih =>
    rw [List.mapM_cons, hok x (by simp),
      ih fun y hy => hok y (by simp [hy])]
    rfl

/-- The Feldman verification loop computes the Horner evaluation of the
sender's commitment list at `ToID`. -/
theorem feldmanRhs_horner (l : List F) (x : F) :
    feldmanRhs l x = evalPolynomial l x := by
  have key : ∀ (l : List F) (r p : F),
      (l.foldl
        (fun (st : F × F) commit =>
          (pointAdd st.1 (pointScalarMult st.2 commit), st.2 * x))
        (r, p)).1 = r + p * evalPolynomial l x := by
    intro l
    induction l with
    | nil =>
      intro r p
      simp [evalPolynomial]
    | cons c t ih =>
      intro r p
      rw [List.foldl_cons]
      show (t.foldl _ (pointAdd r (pointScalarMult p c), p * x)).1 = _
      rw [ih]
      unfold pointAdd pointScalarMult evalPolynomial
      rw [List.foldr_cons]
      ring
  unfold feldmanRhs
  rw [key, scalarFromInt_one]
  unfold pointIdentity
  ring

/-- The commitments of an honest participant are the coefficients
themselves under the discrete-log representation (`c · G ↦ c`). -/
theorem commitments_map_id (l : List F) :
    (l.map fun c => pointScalarMult c pointGen) = l := by
  have h : ∀ c ∈ l, pointScalarMult c pointGen = c := fun c _ => mul_one c
  rw [List.map_congr_left h]
  simp

/-- Splitting the value at a member off a duplicate-free sum. -/
theorem sum_eq_add_filter_ne (g : ℕ → F) :
    ∀ (l : List ℕ), l.Nodup → ∀ i ∈ l,
      (l.map g).sum =
        g i + ((l.filter fun j => decide (j ≠ i)).map g).sum := by
  intro l
  induction l with
  | nil => intro _ i hi; cases hi
  | cons a t ih =>
    intro hnd i hi
    obtain ⟨hat, hndt⟩ := List.nodup_cons.mp hnd
    rcases List.mem_cons.mp hi with hia | hit
    · subst hia
      have hfil : t.filter (fun j => decide (j ≠ i)) = t := by
        rw [List.filter_eq_self]
        intro j hj
        exact decide_eq_true fun hji => hat (hji ▸ hj)
      rw [List.filter_cons_of_neg (by simp), hfil, List.map_cons,
        List.sum_cons]
    · have hai : a ≠ i := fun h => hat (h ▸ hit)
      rw [List.filter_cons_of_pos (by simpa using hai), List.map_cons,
        List.sum_cons, List.map_cons, List.sum_cons, ih hndt i hit]
      ring

theorem polyOf_nil : (polyOf ([] : List F)) = 0 := rfl

theorem polyOf_cons (a : F) (t : List F) :
    polyOf (a :: t) = Polynomial.C a + polyOf t * Polynomial.X := rfl

theorem polyOf_coeff (l : List F) (m : ℕ) :
    (polyOf l).coeff m = l.getD m 0 := by
  induction l generalizing m with
  | nil => simp [polyOf_nil]
  | cons a t ih =>
    cases m with
    | zero =>
      rw [polyOf_cons, Polynomial.coeff_add, Polynomial.coeff_C_zero,
        Polynomial.coeff_mul_X_zero]
      simp
    | succ m =>
      rw [polyOf_cons, Polynomial.coeff_add, Polynomial.coeff_C,
        Polynomial.coeff_mul_X, ih]
      simp

theorem polyOf_eval (l : List F) (x : F) :
    (polyOf l).eval x = evalPolynomial l x := by
  induction l with
  | nil => simp [polyOf_nil, evalPolynomial]
  | cons a t ih =>
    rw [polyOf_cons]
    show _ = evalPolynomial t x * x + a
    rw [Polynomial.eval_add, Polynomial.eval_C, Polynomial.eval_mul,
      Polynomial.eval_X, ih]
    ring

theorem polyOf_eval_zero (l : List F) : (polyOf l).eval 0 = l.headD 0 := by
  cases l with
  | nil => simp [polyOf_nil]
  | cons a t =>
    rw [polyOf_cons]
    simp

theorem polyOf_degree_lt (l : List F) :
    (polyOf l).degree < (l.length : ℕ) := by
  rw [Polynomial.degree_lt_iff_coeff_zero]
  intro m hm
  rw [polyOf_coeff]
  exact List.getD_eq_default _ _ hm

theorem degree_list_sum_lt (l : List (Polynomial F)) (n : ℕ)
    (h : ∀ p ∈ l, p.degree < (n : ℕ)) : l.sum.degree < (n : ℕ) := by
  induction l with
  | nil =>
    rw [List.sum_nil, Polynomial.degree_zero]
    exact WithBot.bot_lt_coe n
  | cons p t ih =>
    rw [List.sum_cons]
    calc (p + t.sum).degree ≤ max p.degree t.sum.degree :=
          Polynomial.degree_add_le p t.sum
    _ < (n : ℕ) :=
          max_lt (h p (by simp)) (ih fun q hq => h q (by simp [hq]))

theorem eval_list_sum (l : List (Polynomial F)) (x : F) :
    l.sum.eval x = (l.map fun p => p.eval x).sum := by
  induction l with
  | nil => simp
  | cons p t ih => simp [ih]

/-- Looking up a key in an association list whose entries are built from
keys by a function returns that function's value at the key. -/
theorem lookup_key_map (key : SigningCommitment F → List ℕ)
    (val : List ℕ → F) (comms : List (SigningCommitment F))
    (c : SigningCommitment F) (hc : c ∈ comms) :
    (comms.map fun d => (key d, val (key d))).lookup (key c) =
      some (val (key c)) := by
  induction comms with
  | nil => cases hc
  | cons d t ih =>
    rw [List.map_cons, List.lookup_cons]
    by_cases h : key c = key d
    · rw [h]
      simp
    · have hne : (key c == key d) = false := beq_eq_false_iff_ne.mpr h
      rw [hne]
      rcases List.mem_cons.mp hc with hcd | hct
      · exact absurd (congrArg key hcd) h
      · exact ih hct

/-- `computeBindingFactors` keys each entry by the signer's ID bytes and
stores the untagged group hash of `(message, commBytes, key)`. -/
theorem computeBindingFactors_eq_map (gm : GroupModel F) (message : List ℕ)
    (comms : List (SigningCommitment F)) :
    computeBindingFactors gm message comms =
      comms.map fun d => (gm.sbytes d.id, rhoOf gm message comms (gm.sbytes d.id)) :=
  rfl

/-- The `R` loop of `SignRound2`/`Aggregate` computes
`Σ (D_i + rho_i · E_i)`. -/
theorem groupCommitment_eq_sum (gm : GroupModel F) (message : List ℕ)
    (comms : List (SigningCommitment F)) :
    groupCommitment gm message comms =
      (comms.map fun c =>
        c.hidingPoint + rhoOf gm message comms (gm.sbytes c.id) *
          c.bindingPoint).sum := by
  have go : ∀ (bf : List (List ℕ × F)) (l : List (SigningCommitment F))
      (a : F),
      l.foldl
        (fun R c =>
          pointAdd R (pointAdd c.hidingPoint
            (pointScalarMult ((bf.lookup (gm.sbytes c.id)).getD 0)
              c.bindingPoint))) a =
      a + (l.map fun c =>
        c.hidingPoint + ((bf.lookup (gm.sbytes c.id)).getD 0) *
          c.bindingPoint).sum := by
    intro bf l
    induction l with
    | nil => intro a; simp
    | cons c t ih =>
      intro a
      rw [List.foldl_cons, ih, List.map_cons, List.sum_cons]
      unfold pointAdd pointScalarMult
      ring
  unfold groupCommitment groupCommitmentWith
  rw [go]
  unfold pointIdentity
  rw [zero_add]
  congr 1
  apply List.map_congr_left
  intro c hc
  rw [computeBindingFactors_eq_map,
    lookup_key_map (fun d => gm.sbytes d.id)
      (rhoOf gm message comms) comms c hc]
  rfl

/-- The single skip-one-signer loop of `lagrangeCoefficient`, as a product
over the filtered list. -/
theorem foldl_if_mul (g : SigningCommitment F → F) (idv : F)
    (l : List (SigningCommitment F)) (a : F) :
    l.foldl (fun acc c => if c.id = idv then acc else acc * g c) a =
      a * ((l.filter fun c => decide (c.id ≠ idv)).map g).prod := by
  induction l generalizing a with
  | nil => simp
  | cons c t ih =>
    rw [List.foldl_cons]
    by_cases h : c.id = idv
    · rw [if_pos h, List.filter_cons_of_neg (by simp [h])]
      exact ih a
    · rw [if_neg h, List.filter_cons_of_pos (by simpa using h), ih,
        List.map_cons, List.prod_cons]
      ring

theorem lagrangeCoefficient_eq (idv : F)
    (comms : List (SigningCommitment F)) :
    lagrangeCoefficient idv comms =
      ((comms.filter fun c => decide (c.id ≠ idv)).map fun c => c.id).prod *
      ((((comms.filter fun c => decide (c.id ≠ idv)).map fun c =>
        c.id - idv)).prod)⁻¹ := by
  unfold lagrangeCoefficient
  rw [foldl_if_mul (g := fun c => c.id),
    foldl_if_mul (g := fun c => c.id - idv), scalarFromInt_one, one_mul,
    one_mul]

end Lemmas

/-! ## Lagrange interpolation at zero

The identity behind threshold reconstruction: with `λ_i` computed as the
code's `num/den` products over a duplicate-free signer list, the weighted
sum of evaluations of a low-degree polynomial recovers its value at `0`. -/

section LagrangeLemmas

variable {K : Type} [Field K] [DecidableEq K]

theorem erase_toFinset_filter (xs : List K) (x : K) :
    xs.toFinset.erase x = (xs.filter fun y => decide (y ≠ x)).toFinset := by
  ext a
  simp [List.mem_filter, and_comm]

theorem lagrange_basis_eval_zero (s : Finset K) (x : K) :
    (Lagrange.basis s id x).eval 0 =
      (∏ y ∈ s.erase x, y) * (∏ y ∈ s.erase x, (y - x))⁻¹ := by
  rw [Lagrange.basis, Polynomial.eval_prod]
  have hpt : ∀ y ∈ s.erase x,
      (Lagrange.basisDivisor (id x) (id y)).eval 0 = y * (y - x)⁻¹ := by
    intro y _
    rw [Lagrange.basisDivisor]
    simp only [id_eq]
    rw [Polynomial.eval_mul, Polynomial.eval_C, Polynomial.eval_sub,
      Polynomial.eval_X, Polynomial.eval_C]
    have h2 : (x - y)⁻¹ = -(y - x)⁻¹ := by
      rw [show x - y = -(y - x) by ring, inv_neg]
    rw [h2]
    ring
  rw [Finset.prod_congr rfl hpt, Finset.prod_mul_distrib,
    Finset.prod_inv_distrib]

/-- Lagrange reconstruction at `0` over a duplicate-free node list, with the
coefficients in the code's `num · den⁻¹` shape. -/
theorem lagrange_sum (P : Polynomial K) (xs : List K) (hnd : xs.Nodup)
    (hdeg : P.degree < (xs.length : ℕ)) :
    (xs.map fun x =>
      ((xs.filter fun y => decide (y ≠ x)).prod *
        (((xs.filter fun y => decide (y ≠ x)).map fun y => y - x).prod)⁻¹) *
        P.eval x).sum = P.eval 0 := by
  classical
  have hcard : xs.toFinset.card = xs.length := List.toFinset_card_of_nodup hnd
  have hinj : Set.InjOn id (xs.toFinset : Set K) := fun a _ b _ h => h
  have hdeg2 : P.degree < xs.toFinset.card := by rw [hcard]; exact hdeg
  have hP := Lagrange.eq_interpolate hinj hdeg2
  have hev := congrArg (Polynomial.eval 0) hP
  rw [Lagrange.interpolate_apply, Polynomial.eval_finset_sum] at hev
  simp only [Polynomial.eval_mul, Polynomial.eval_C, id_eq] at hev
  rw [hev, List.sum_toFinset _ hnd]
  apply congrArg
  apply List.map_congr_left
  intro x hx
  rw [lagrange_basis_eval_zero, erase_toFinset_filter,
    List.prod_toFinset _ (hnd.filter _), List.prod_toFinset _ (hnd.filter _)]
  have hid : ((xs.filter fun y => decide (y ≠ x)).map fun y => y) =
      xs.filter fun y => decide (y ≠ x) := List.map_id' _
  rw [hid]
  ring

end LagrangeLemmas

/-! ## The honest DKG run -/

section DKGLemmas

variable {F : Type} [CommRing F] [Inv F] [DecidableEq F]

theorem getD_range (n k : ℕ) (hk : k < n) (d : ℕ) :
    (List.range n).getD k d = k := by
  rw [List.getD_eq_getElem?_getD, List.getElem?_range hk]
  rfl

theorem map_getD_range {α β : Type} (f : α → β) (d : α) :
    ∀ l : List α,
      ((List.range l.length).map fun j => f (l.getD j d)) = l.map f := by
  intro l
  induction l with
  | nil => simp
  | cons a t ih =>
    rw [List.length_cons, List.range_succ_eq_map, List.map_cons,
      List.map_map, List.map_cons]
    congr 1

/-- An honestly generated private share passes the Feldman check and is
appended to the recipient's share map; folding over a sender list with
fresh, pairwise-distinct keys accumulates exactly one entry per sender. -/
theorem receive_foldlM_ok (gm : GroupModel F) :
    ∀ (S : List ℕ) (p : Participant F)
      (msgs : ℕ → Round1PrivateData F) (coms : ℕ → List F),
      (∀ j ∈ S, pointScalarMult (msgs j).share pointGen =
        feldmanRhs (coms j) (msgs j).toID) →
      (∀ j ∈ S, ∀ e ∈ p.receivedShares, e.1 ≠ gm.sbytes (msgs j).fromID) →
      (S.map fun j => gm.sbytes (msgs j).fromID).Nodup →
      S.foldlM (fun st j => round2ReceiveShare gm st (msgs j) (coms j)) p =
        .ok { p with receivedShares := (p.receivedShares ++
          S.map fun j => (gm.sbytes (msgs j).fromID, (msgs j).share)) } := by
  intro S
  induction S with
  | nil =>
    intro p msgs coms _ _ _
    show Except.ok p = _
    rw [List.map_nil, List.append_nil]
  | cons j T ih =>
    intro p msgs coms hchk hfresh hnd
    rw [List.map_cons, List.nodup_cons] at hnd
    obtain ⟨hjT, hndT⟩ := hnd
    rw [List.foldlM_cons]
    have hstep : round2ReceiveShare gm p (msgs j) (coms j) =
        .ok { p with receivedShares := (p.receivedShares ++
          [(gm.sbytes (msgs j).fromID, (msgs j).share)]) } := by
      have hok := hchk j (by simp)
      have hfr : ∀ e ∈ p.receivedShares, e.1 ≠ gm.sbytes (msgs j).fromID :=
        fun e he => hfresh j (by simp) e he
      simp only [round2ReceiveShare]
      rw [if_pos hok, mapStore_fresh _ _ _ hfr]
    rw [hstep]
    show T.foldlM (fun st j => round2ReceiveShare gm st (msgs j) (coms j))
      ({ p with receivedShares := (p.receivedShares ++
        [(gm.sbytes (msgs j).fromID, (msgs j).share)]) } : Participant F) = _
    rw [ih _ msgs coms (fun j2 hj => hchk j2 (by simp [hj]))
      (by
        intro j2 hj e he
        rcases List.mem_append.mp he with hin | hsingle
        · exact hfresh j2 (by simp [hj]) e hin
        · rw [List.mem_singleton.mp hsingle]
          intro hkey
          have hkey2 : gm.sbytes (msgs j).fromID =
              gm.sbytes (msgs j2).fromID := hkey
          have hmem : gm.sbytes (msgs j2).fromID ∈
              List.map (fun j => gm.sbytes (msgs j).fromID) T :=
            List.mem_map_of_mem (fun j => gm.sbytes (msgs j).fromID) hj
          rw [← hkey2] at hmem
          exact hjT hmem)
      hndT]
    rw [List.append_assoc]
    rfl

/-- The honest receive phase succeeds and yields exactly the expected
participant state. -/
theorem honestReceiveRun_eq (gm : GroupModel F) (ps : List (ℕ × List F))
    (i : ℕ) (hi : i < ps.length)
    (hnd : (ps.map fun pr => (scalarFromInt pr.1 : F)).Nodup)
    (hinj : Function.Injective gm.sbytes) :
    honestReceiveRun gm ps i = .ok (honestFinalParticipant gm ps i) := by
  have hpart : ∀ j, j < ps.length →
      (honestParticipants ps).getD j (newParticipant 0 []) =
        newParticipant (ps.getD j (0, [])).1 (ps.getD j (0, [])).2 := by
    intro j hj
    unfold honestParticipants
    exact getD_map_lt _ ps j hj _ (0, [])
  have hmemlt : ∀ j ∈ (List.range ps.length).filter fun j => decide (j ≠ i),
      j < ps.length := by
    intro j hj
    exact List.mem_range.mp (List.mem_of_mem_filter hj)
  have hscalar_inj : ∀ j₁, j₁ < ps.length → ∀ j₂, j₂ < ps.length →
      (scalarFromInt (ps.getD j₁ (0, [])).1 : F) =
        scalarFromInt (ps.getD j₂ (0, [])).1 → j₁ = j₂ := by
    intro j₁ h₁ j₂ h₂ heq
    have e₁ : (ps.map fun pr => (scalarFromInt pr.1 : F)).get
        ⟨j₁, by simpa using h₁⟩ =
        (scalarFromInt (ps.getD j₁ (0, [])).1 : F) := by
      rw [List.get_eq_getElem, List.getElem_map,
        ← List.getD_eq_getElem ps (0, []) h₁]
    have e₂ : (ps.map fun pr => (scalarFromInt pr.1 : F)).get
        ⟨j₂, by simpa using h₂⟩ =
        (scalarFromInt (ps.getD j₂ (0, [])).1 : F) := by
      rw [List.get_eq_getElem, List.getElem_map,
        ← List.getD_eq_getElem ps (0, []) h₂]
    rw [List.get_eq_getElem] at e₁ e₂
    exact (List.Nodup.getElem_inj_iff hnd).mp (by rw [e₁, e₂, heq])
  have happ := receive_foldlM_ok gm
    ((List.range ps.length).filter fun j => decide (j ≠ i))
    ((honestParticipants ps).getD i (newParticipant 0 []))
    (fun j => round1PrivateSend
      ((honestParticipants ps).getD j (newParticipant 0 []))
      (ps.getD i (0, [])).1)
    (fun j => ((honestParticipants ps).getD j (newParticipant 0 [])).commitments)
    (by
      intro j hj
      show pointScalarMult
        (round1PrivateSend ((honestParticipants ps).getD j (newParticipant 0 []))
          (ps.getD i (0, [])).1).share pointGen =
        feldmanRhs
          ((honestParticipants ps).getD j (newParticipant 0 [])).commitments
          (round1PrivateSend ((honestParticipants ps).getD j (newParticipant 0 []))
            (ps.getD i (0, [])).1).toID
      rw [hpart j (hmemlt j hj)]
      show pointScalarMult
        (evalPolynomial (ps.getD j (0, [])).2
          (scalarFromInt (ps.getD i (0, [])).1)) pointGen =
        feldmanRhs
          ((ps.getD j (0, [])).2.map fun c => pointScalarMult c pointGen)
          (scalarFromInt (ps.getD i (0, [])).1)
      rw [feldmanRhs_horner, commitments_map_id]
      exact mul_one _)
    (by
      intro j hj e he
      rw [hpart i hi] at he
      simp [newParticipant] at he)
    (by
      apply List.Nodup.map_on
      · intro j1 hj1 j2 hj2 heq
        have heq2 : gm.sbytes
            ((honestParticipants ps).getD j1 (newParticipant 0 [])).id =
          gm.sbytes
            ((honestParticipants ps).getD j2 (newParticipant 0 [])).id := heq
        rw [hpart j1 (hmemlt j1 hj1), hpart j2 (hmemlt j2 hj2)] at heq2
        exact hscalar_inj j1 (hmemlt j1 hj1) j2 (hmemlt j2 hj2) (hinj heq2)
      · exact List.Nodup.filter _ (List.nodup_range _))
  unfold honestReceiveRun
  rw [happ, hpart i hi]
  apply congrArg
  apply Participant.ext
  · simp [honestFinalParticipant, newParticipant]
  · simp [honestFinalParticipant, newParticipant]
  · simp [honestFinalParticipant, newParticipant]
  · show ((newParticipant (ps.getD i (0, [])).1
      (ps.getD i (0, [])).2).receivedShares ++ _) =
      (honestFinalParticipant gm ps i).receivedShares
    unfold honestFinalParticipant newParticipant
    rw [List.nil_append]
    apply List.map_congr_left
    intro j hj
    show (gm.sbytes (round1PrivateSend
        ((honestParticipants ps).getD j (newParticipant 0 []))
        (ps.getD i (0, [])).1).fromID,
      (round1PrivateSend
        ((honestParticipants ps).getD j (newParticipant 0 []))
        (ps.getD i (0, [])).1).share) = _
    rw [hpart j (hmemlt j hj)]
    rfl

/-- The whole honest DKG run succeeds and produces
`honestKeyShareList`. -/
theorem honestKeyShares_eq (gm : GroupModel F) (ps : List (ℕ × List F))
    (hnd : (ps.map fun pr => (scalarFromInt pr.1 : F)).Nodup)
    (hinj : Function.Injective gm.sbytes) :
    honestKeyShares gm ps = .ok (honestKeyShareList gm ps) := by
  unfold honestKeyShares honestKeyShareList
  apply mapM_ok_except
  intro i hi
  have hilt : i < ps.length := List.mem_range.mp hi
  show (honestReceiveRun gm ps i >>= fun p =>
    pure (finalize p (honestBroadcasts ps))) = _
  rw [honestReceiveRun_eq gm ps i hilt hnd hinj]
  rfl

/-- The group key computed by `Finalize` is the sum of all constant-term
commitments, i.e. `(Σ_s a₀_s) · G`, for any participant state. -/
theorem finalize_groupKey (p : Participant F) (ps : List (ℕ × List F)) :
    (finalize p (honestBroadcasts ps)).groupKey = groupKeyOf ps := by
  have go : ∀ (l : List (Round1Data F)) (a : F),
      l.foldl
        (fun acc b => pointAdd acc (b.commitments.headD pointIdentity)) a =
      a + (l.map fun b => b.commitments.headD pointIdentity).sum := by
    intro l
    induction l with
    | nil => intro a; simp
    | cons b t ih =>
      intro a
      rw [List.foldl_cons, ih, List.map_cons, List.sum_cons]
      unfold pointAdd
      ring
  show (honestBroadcasts ps).foldl
    (fun acc b => pointAdd acc (b.commitments.headD pointIdentity))
    pointIdentity = groupKeyOf ps
  rw [go]
  unfold pointIdentity groupKeyOf pointScalarMult pointGen
  rw [zero_add, mul_one]
  unfold honestBroadcasts honestParticipants
  rw [List.map_map, List.map_map]
  congr 1
  apply List.map_congr_left
  intro pr hpr
  show ((pr.2.map fun c => pointScalarMult c pointGen)).headD pointIdentity =
    pr.2.headD 0
  rw [commitments_map_id]
  rfl

theorem polyTotal_eval (ps : List (ℕ × List F)) (x : F) :
    (polyTotal ps).eval x = (ps.map fun pr => evalPolynomial pr.2 x).sum := by
  unfold polyTotal
  rw [eval_list_sum, List.map_map]
  congr 1
  apply List.map_congr_left
  intro pr hpr
  show (polyOf pr.2).eval x = _
  rw [polyOf_eval]

theorem polyTotal_eval_zero (ps : List (ℕ × List F)) :
    (polyTotal ps).eval 0 = (ps.map fun pr => pr.2.headD 0).sum := by
  unfold polyTotal
  rw [eval_list_sum, List.map_map]
  congr 1
  apply List.map_congr_left
  intro pr hpr
  show (polyOf pr.2).eval 0 = _
  rw [polyOf_eval_zero]

theorem polyTotal_degree_lt (ps : List (ℕ × List F)) (t : ℕ)
    (hlen : ∀ pr ∈ ps, pr.2.length = t) :
    (polyTotal ps).degree < (t : ℕ) := by
  unfold polyTotal
  apply degree_list_sum_lt
  intro p hp
  obtain ⟨pr, hpr, rfl⟩ := List.mem_map.mp hp
  have h := polyOf_degree_lt (F := F) pr.2
  rwa [hlen pr hpr] at h

/-- The secret key `Finalize` computes for participant `k` of the honest
DKG is the combined polynomial evaluated at the participant's ID. -/
theorem finalize_secret (gm : GroupModel F) (ps : List (ℕ × List F)) (k : ℕ)
    (hk : k < ps.length) :
    (finalize (honestFinalParticipant gm ps k)
      (honestBroadcasts ps)).secretKey =
      (polyTotal ps).eval (scalarFromInt (ps.getD k (0, [])).1) := by
  show (((List.range ps.length).filter fun j => decide (j ≠ k)).map fun j =>
      (gm.sbytes (scalarFromInt (ps.getD j (0, [])).1 : F),
        evalPolynomial (ps.getD j (0, [])).2
          (scalarFromInt (ps.getD k (0, [])).1))).foldl
      (fun acc e => acc + e.2)
      (evalPolynomial (ps.getD k (0, [])).2
        (scalarFromInt (ps.getD k (0, [])).1)) = _
  have h1 := foldl_add_eq_sum (fun e : List ℕ × F => e.2)
    (((List.range ps.length).filter fun j => decide (j ≠ k)).map fun j =>
      (gm.sbytes (scalarFromInt (ps.getD j (0, [])).1 : F),
        evalPolynomial (ps.getD j (0, [])).2
          (scalarFromInt (ps.getD k (0, [])).1)))
    (evalPolynomial (ps.getD k (0, [])).2
      (scalarFromInt (ps.getD k (0, [])).1))
  rw [List.map_map] at h1
  refine h1.trans ?_
  show evalPolynomial (ps.getD k (0, [])).2
      (scalarFromInt (ps.getD k (0, [])).1) +
    (((List.range ps.length).filter fun j => decide (j ≠ k)).map fun j =>
      evalPolynomial (ps.getD j (0, [])).2
        (scalarFromInt (ps.getD k (0, [])).1)).sum = _
  rw [← sum_eq_add_filter_ne
    (fun j => evalPolynomial (ps.getD j (0, [])).2
      (scalarFromInt (ps.getD k (0, [])).1))
    (List.range ps.length) (List.nodup_range _) k (List.mem_range.mpr hk)]
  rw [polyTotal_eval]
  have h := map_getD_range
    (fun pr => evalPolynomial pr.2 (scalarFromInt (ps.getD k (0, [])).1))
    ((0 : ℕ), ([] : List F)) ps
  rw [← h]

/-- The `k`-th honest key share. -/
theorem honestKeyShareList_getD (gm : GroupModel F)
    (ps : List (ℕ × List F)) (k : ℕ) (hk : k < ps.length) (d : KeyShare F) :
    (honestKeyShareList gm ps).getD k d =
      finalize (honestFinalParticipant gm ps k) (honestBroadcasts ps) := by
  have hk2 : k < (honestKeyShareList gm ps).length := by
    unfold honestKeyShareList
    simpa using hk
  rw [List.getD_eq_getElem _ _ hk2]
  unfold honestKeyShareList
  rw [List.getElem_map, List.getElem_range]

end DKGLemmas

/-! ## Claim C2 — DKG group-key consistency -/

/-- C2: after the honest DKG (in which every participant receives one
broadcast from each of the `n` participants and all `n − 1` private
shares), the run succeeds; every produced key share carries the same group
key, namely `(Σ_s a₀_s) · G`, the sum of the constant-term commitments. -/
theorem c2_dkg_group_key {F : Type} [CommRing F] [Inv F] [DecidableEq F]
    (gm : GroupModel F) (ps : List (ℕ × List F))
    (hnd : (ps.map fun pr => (scalarFromInt pr.1 : F)).Nodup)
    (hinj : Function.Injective gm.sbytes) :
    honestKeyShares gm ps = .ok (honestKeyShareList gm ps)
    ∧ (∀ ks ∈ honestKeyShareList gm ps,
        ks.groupKey =
          pointScalarMult ((ps.map fun pr => pr.2.headD 0).sum) pointGen) := by
  refine ⟨honestKeyShares_eq gm ps hnd hinj, fun ks hks => ?_⟩
  obtain ⟨i, hi, rfl⟩ := List.mem_map.mp hks
  exact finalize_groupKey _ ps

theorem gm101_sbytes_injective : Function.Injective gm101.sbytes := by
  intro a b h
  have h2 : a.val = b.val := by
    have := congrArg (fun l => l.headD 0) h
    simpa [gm101] using this
  exact ZMod.val_injective 101 h2

/-- Witness for C2: a concrete 3-participant honest DKG over the `ZMod 101`
model. -/
theorem c2_dkg_group_key_witness :
    honestKeyShares gm101 [(1, [3, 4]), (2, [5, 6]), (3, [7, 9])] =
      .ok (honestKeyShareList gm101 [(1, [3, 4]), (2, [5, 6]), (3, [7, 9])])
    ∧ ∀ ks ∈ honestKeyShareList gm101 [(1, [3, 4]), (2, [5, 6]), (3, [7, 9])],
        ks.groupKey =
          pointScalarMult
            (([(1, [3, 4]), (2, [5, 6]), (3, [7, 9])].map
              fun pr => (pr.2.headD (0 : ZMod 101))).sum) pointGen :=
  c2_dkg_group_key gm101 [(1, [3, 4]), (2, [5, 6]), (3, [7, 9])]
    (by decide) gm101_sbytes_injective

/-! ## Claim C3 — the verification equation -/

/-- C3: for every message, signature `(R, Z)` and group key `Y`, `Verify`
returns `true` iff `Z·G = R + c·Y` where `c` is the hash of
`(R.Bytes, Y.Bytes, message)`; if the hashing step fails `Verify` returns
`false`; and under the default SHA-256 hasher the claim's
`H2(R.Bytes, Y.Bytes, message)` coincides with the group hash the code
calls.  `Verify` is `Bool`-valued, so it cannot error or retry. -/
theorem c3_verify_iff {F : Type} [Field F] [DecidableEq F] (f : FROST F)
    (message : List ℕ) (sig : Signature F) (groupKey : F) :
    (∀ c, f.gm.hashToScalar
        [f.gm.pbytes sig.R, f.gm.pbytes groupKey, message] = some c →
      (verify f message sig groupKey = true ↔
        pointScalarMult sig.z pointGen =
          pointAdd sig.R (pointScalarMult c groupKey)))
    ∧ (f.gm.hashToScalar
        [f.gm.pbytes sig.R, f.gm.pbytes groupKey, message] = none →
      verify f message sig groupKey = false)
    ∧ (∀ R Y m : List ℕ, sha256HasherH2 R Y m = bjjHashToScalar [R, Y, m]) := by
  refine ⟨fun c hc => ?_, fun hn => ?_, fun R Y m => ?_⟩
  · unfold verify
    rw [hc]
    simp
  · unfold verify
    rw [hn]
  · unfold sha256HasherH2 bjjHashToScalar
    simp [List.flatten]

/-- Witness for C3 at a concrete input over the `ZMod 101` model. -/
theorem c3_verify_iff_witness :
    verify frost101 [] ⟨0, 0⟩ 0 = true ↔
      pointScalarMult (0 : ZMod 101) pointGen =
        pointAdd (0 : ZMod 101) (pointScalarMult 0 0) :=
  (c3_verify_iff frost101 [] ⟨0, 0⟩ 0).1 0 (by decide)

/-! ## Claim C4 — binding factors bypass the hasher's `H1`

`computeBindingFactors` calls `f.group.HashToScalar(message, commBytes, ID)`
— plain SHA-256 of the concatenation, with no domain tag — and never the
configured hasher's `H1`, which prepends `"rho"` (`frost/hasher.go`).  The
two disagree on concrete inputs. -/

set_option maxRecDepth 100000 in
/-- C4 (code bug): at the concrete commitment list `[(1, 2, 3)]` and the
empty message, the binding factor stored by `computeBindingFactors` is the
untagged group hash of `(message, encoded list, ID bytes)`, and that value
differs from `H1(message, encoded list, ID bytes)` of the default SHA-256
hasher (which prepends the ASCII tag `"rho"`). -/
theorem c4_binding_factor_tag :
    (computeBindingFactors bjjGroupModel []
        [⟨1, 2, 3⟩]).lookup (bjjScalarBytes 1) =
      some (bjjHashToScalar [[], encC4, bjjScalarBytes 1])
    ∧ bjjHashToScalar [[], encC4, bjjScalarBytes 1] ≠
      sha256HasherH1 [] encC4 (bjjScalarBytes 1) := by
  constructor
  · decide
  · decide

/-! ## Claim C5 — signatures are not isolated between hashers

`SignRound2`, `Aggregate` and `Verify` never consult `f.hasher`: every hash
they compute goes through `f.group.HashToScalar`.  Two FROST instances over
the same group that differ only in their hasher therefore sign and verify
identically, so a signature produced under the Blake2b instance verifies
under the SHA-256 instance — contradicting the claim and the repository's
own test (`frost_test.go`, `TestBlake2bHasher`). -/

/-- C5 (code bug): for any two hashers over the same group, `Verify`,
`SignRound2` and `Aggregate` compute identical results; the hasher field is
dead in the signing and verification paths. -/
theorem c5_hasher_ignored {F : Type} [Field F] [DecidableEq F]
    (gm : GroupModel F) (hasherA hasherB : HasherModel F)
    (threshold total : ℤ) (message : List ℕ) (sig : Signature F)
    (groupKey : F) (share : KeyShare F) (nonce : SigningNonce F)
    (commitments : List (SigningCommitment F))
    (shares : List (SignatureShare F)) :
    verify ⟨gm, hasherA, threshold, total⟩ message sig groupKey =
      verify ⟨gm, hasherB, threshold, total⟩ message sig groupKey
    ∧ signRound2 ⟨gm, hasherA, threshold, total⟩ share nonce message
        commitments =
      signRound2 ⟨gm, hasherB, threshold, total⟩ share nonce message
        commitments
    ∧ aggregate ⟨gm, hasherA, threshold, total⟩ message commitments shares =
      aggregate ⟨gm, hasherB, threshold, total⟩ message commitments shares :=
  ⟨rfl, rfl, rfl⟩

/-! ## Claim C6 — Feldman share verification -/

/-- C6: `Round2ReceiveShare` fails with the "invalid share" error exactly
when `share·G` differs from the iteratively-built `Σ ToID^i · C_i` (in which
case the participant state is left unchanged — the Go code mutates the map
only on success), and otherwise succeeds storing the share keyed by the
sender's ID bytes. -/
theorem c6_round2_receive_share {F : Type} [Field F] [DecidableEq F]
    (gm : GroupModel F) (p : Participant F) (data : Round1PrivateData F)
    (senderCommitments : List F) :
    (round2ReceiveShare gm p data senderCommitments =
        .error "invalid share from participant" ↔
      pointScalarMult data.share pointGen ≠
        feldmanRhs senderCommitments data.toID)
    ∧ (pointScalarMult data.share pointGen =
        feldmanRhs senderCommitments data.toID →
      round2ReceiveShare gm p data senderCommitments =
        .ok { p with
          receivedShares := mapStore p.receivedShares
            (gm.sbytes data.fromID) data.share }) := by
  unfold round2ReceiveShare
  by_cases h : pointScalarMult data.share pointGen =
      feldmanRhs senderCommitments data.toID
  · simp [h]
  · simp [h]

/-- Witness for C6: a valid share over the `ZMod 101` model is accepted and
stored. -/
theorem c6_round2_receive_share_witness :
    round2ReceiveShare gm101 (newParticipant 2 [4, 6])
      ⟨1, 2, 19⟩ [5, 7] =
      .ok { newParticipant 2 [4, 6] with
        receivedShares := mapStore [] (gm101.sbytes 1) 19 } :=
  (c6_round2_receive_share gm101 (newParticipant 2 [4, 6]) ⟨1, 2, 19⟩
    [5, 7]).2 (by decide)

/-! ## Claim C9 — session-layer aggregation guards -/

/-- C9: the session-layer `Aggregate` errors exactly when the share list is
empty, the commitment list is empty, or the lengths differ; otherwise it
returns exactly the core `Aggregate` result (the core's error is always
`nil`). -/
theorem c9_session_aggregate {F : Type} [Field F] [DecidableEq F]
    (f : FROST F) (message : List ℕ)
    (commitments : List (SigningCommitment F))
    (shares : List (SignatureShare F)) :
    ((∃ e, sessionAggregate f message commitments shares = .error e) ↔
      (shares = [] ∨ commitments = [] ∨
        shares.length ≠ commitments.length))
    ∧ (shares ≠ [] → commitments ≠ [] →
        shares.length = commitments.length →
      sessionAggregate f message commitments shares =
        .ok (aggregate f message commitments shares)) := by
  unfold sessionAggregate
  by_cases h1 : shares.length = 0
  · have hs : shares = [] := List.length_eq_zero.mp h1
    subst hs
    simp
  · have hs : shares ≠ [] := by
      intro h
      rw [h] at h1
      exact h1 rfl
    by_cases h2 : commitments.length = 0
    · have hc : commitments = [] := List.length_eq_zero.mp h2
      subst hc
      simp [h1, hs]
    · have hc : commitments ≠ [] := by
        intro h
        rw [h] at h2
        exact h2 rfl
      by_cases h3 : shares.length = commitments.length
      · simp [h1, h2, h3, hs, hc]
      · simp [h1, h2, h3, hs, hc]

/-- Witness for C9: one commitment and one share aggregate via the core. -/
theorem c9_session_aggregate_witness :
    sessionAggregate frost101 [] [⟨1, 2, 3⟩] [⟨1, 5⟩] =
      .ok (aggregate frost101 [] [⟨1, 2, 3⟩] [⟨1, 5⟩]) :=
  (c9_session_aggregate frost101 [] [⟨1, 2, 3⟩] [⟨1, 5⟩]).2
    (by decide) (by decide) (by decide)

/-! ## Claim C10 — `scalarFromInt` reduces the id mod 256 -/

/-- C10: the ID scalar built by `scalarFromInt` (used by `NewParticipant`
and `Round1PrivateSend`) equals the scalar of `id mod 256`; ids congruent
mod 256 yield identical scalars; a multiple of 256 yields the zero scalar.
The function is total: no error is returned. -/
theorem c10_scalar_from_int :
    (∀ id : ℤ, frostScalarFromInt id = ((id % 256).toNat : BJJScalar))
    ∧ (∀ a b : ℤ, a % 256 = b % 256 →
        frostScalarFromInt a = frostScalarFromInt b)
    ∧ (∀ a : ℤ, (256 : ℤ) ∣ a → frostScalarFromInt a = 0) := by
  have key : ∀ id : ℤ,
      frostScalarFromInt id = ((id % 256).toNat : BJJScalar) := by
    intro id
    unfold frostScalarFromInt bjjSetBytes
    rw [natOfBytesBE_id_buffer]
  refine ⟨key, fun a b h => ?_, fun a h => ?_⟩
  · rw [key a, key b, h]
  · rw [key a, Int.emod_eq_zero_of_dvd h]
    rfl

/-- Witness for C10: ids 257 and 1 collide, id 512 gives the zero scalar. -/
theorem c10_scalar_from_int_witness :
    frostScalarFromInt 257 = frostScalarFromInt 1 ∧
      frostScalarFromInt 512 = 0 :=
  ⟨c10_scalar_from_int.2.1 257 1 (by decide),
   c10_scalar_from_int.2.2 512 (by decide)⟩

/-! ## Claim C8 — participant id validation -/

/-- C8: `session.NewParticipant` fails for every id with `id < 1` or
`id > total`, and succeeds for every id in `1..total` (given parameters the
FROST constructor accepts: `threshold ≥ 2`, `total ≥ threshold`). -/
theorem c8_new_participant_id (threshold total id : ℤ) :
    ((id < 1 ∨ id > total) →
      ∃ e, sessionNewParticipant threshold total id = .error e)
    ∧ (2 ≤ threshold → threshold ≤ total → 1 ≤ id → id ≤ total →
      ∃ p, sessionNewParticipant threshold total id = .ok p) := by
  unfold sessionNewParticipant sessionNewParticipantWithHasher
    frostNewWithHasher
  constructor
  · intro h
    rw [if_pos h]
    exact ⟨_, rfl⟩
  · intro ht htot h1 h2
    rw [if_neg (by omega), if_neg (by omega), if_neg (by omega)]
    exact ⟨_, rfl⟩

/-- Witness for C8: id 0 is rejected and id 2 is accepted for `t = 2`,
`n = 3`. -/
theorem c8_new_participant_id_witness :
    (∃ e, sessionNewParticipant 2 3 0 = .error e) ∧
      ∃ p, sessionNewParticipant 2 3 2 = .ok p :=
  ⟨(c8_new_participant_id 2 3 0).1 (by omega),
   (c8_new_participant_id 2 3 2).2 (by omega) (by omega) (by omega)
     (by omega)⟩

/-! ## Claim C7 — signing sessions are one-shot -/

/-- C7: a `SigningSession` is one-shot.  If the commitment list contains the
session's own commitment and `SignRound2` succeeds, the first `Sign` returns
that signature share; afterwards `IsConsumed` reports `true` and the nonce
is dropped; every subsequent `Sign` — with any commitment list — fails
deterministically with the "session already consumed" error and leaves the
state unchanged.  Moreover (last conjunct) the very first `Sign` call sets
the consumed flag and drops the nonce on *every* path, whether it succeeds
or fails. -/
theorem c7_session_one_shot {F : Type} [CommRing F] [Inv F] [DecidableEq F]
    (f : FROST F) (ks : KeyShare F) (message : List ℕ) (d e : F)
    (allComms : List (SigningCommitment F)) (sh : SignatureShare F)
    (hown : allComms.any
      (fun c => c.id = (signRound1 ks d e).2.id) = true)
    (hsr2 : signRound2 f ks (signRound1 ks d e).1 message allComms
      = .ok sh) :
    ((newSigningSession f ks message d e).sign allComms).1 = .ok sh
    ∧ (((newSigningSession f ks message d e).sign allComms).2).isConsumed
      = true
    ∧ (((newSigningSession f ks message d e).sign allComms).2).nonce = none
    ∧ (∀ comms2 : List (SigningCommitment F),
        (((((newSigningSession f ks message d e).sign allComms).2).sign
          comms2)).1 =
          .error "session already consumed: nonce reuse prevented"
        ∧ (((((newSigningSession f ks message d e).sign allComms).2).sign
            comms2)).2 =
          ((newSigningSession f ks message d e).sign allComms).2)
    ∧ (∀ comms2 : List (SigningCommitment F),
        ((((newSigningSession f ks message d e).sign comms2).2)).consumed
          = true
        ∧ ((((newSigningSession f ks message d e).sign comms2).2)).nonce
          = none) := by
  have hstep : (newSigningSession f ks message d e).sign allComms =
      (Except.ok sh,
        SigningSession.mk f ks message none (signRound1 ks d e).2 true) := by
    show ((if allComms.any (fun c => c.id = (signRound1 ks d e).2.id) = true
        then signRound2 f ks (signRound1 ks d e).1 message allComms
        else Except.error "own commitment not found in commitment list"),
      SigningSession.mk f ks message none (signRound1 ks d e).2 true) = _
    rw [if_pos hown, hsr2]
  rw [hstep]
  exact ⟨rfl, rfl, rfl, fun comms2 => ⟨rfl, rfl⟩, fun comms2 => ⟨rfl, rfl⟩⟩

/-- Concrete evaluation of `SignRound2` for the C7 witness session (the
scalar inverse inside the Lagrange coefficient is `1⁻¹`, evaluated with
`ZMod.inv_one`; everything else reduces definitionally). -/
theorem signRound2_101_eval :
    signRound2 frost101 ⟨1, 5, 5, 7⟩ ⟨1, 2, 3⟩ [] [⟨1, 2, 3⟩]
      = .ok ⟨1, 72⟩ := by
  show Except.ok
      (⟨1, 2 + 7 * 3 + 1 * (1 : ZMod 101)⁻¹ * 5 * 30⟩ :
        SignatureShare (ZMod 101)) = _
  rw [ZMod.inv_one]
  rfl

/-- Witness for C7: a concrete session over the `ZMod 101` model
(`t = 2`, `n = 3`), key share id 1, nonce scalars `d = 2`, `e = 3`, empty
message, commitment list containing exactly the session's own
commitment. -/
theorem c7_session_one_shot_witness :
    ((newSigningSession frost101 ⟨1, 5, 5, 7⟩ [] 2 3).sign
      [⟨1, 2, 3⟩]).1 = .ok ⟨1, 72⟩
    ∧ (((newSigningSession frost101 ⟨1, 5, 5, 7⟩ [] 2 3).sign
      [⟨1, 2, 3⟩]).2).isConsumed = true
    ∧ (((newSigningSession frost101 ⟨1, 5, 5, 7⟩ [] 2 3).sign
      [⟨1, 2, 3⟩]).2).nonce = none
    ∧ (∀ comms2 : List (SigningCommitment (ZMod 101)),
        (((((newSigningSession frost101 ⟨1, 5, 5, 7⟩ [] 2 3).sign
          [⟨1, 2, 3⟩]).2).sign comms2)).1 =
          .error "session already consumed: nonce reuse prevented"
        ∧ (((((newSigningSession frost101 ⟨1, 5, 5, 7⟩ [] 2 3).sign
            [⟨1, 2, 3⟩]).2).sign comms2)).2 =
          ((newSigningSession frost101 ⟨1, 5, 5, 7⟩ [] 2 3).sign
            [⟨1, 2, 3⟩]).2)
    ∧ (∀ comms2 : List (SigningCommitment (ZMod 101)),
        ((((newSigningSession frost101 ⟨1, 5, 5, 7⟩ [] 2 3).sign
          comms2).2)).consumed = true
        ∧ ((((newSigningSession frost101 ⟨1, 5, 5, 7⟩ [] 2 3).sign
          comms2).2)).nonce = none) :=
  c7_session_one_shot frost101 ⟨1, 5, 5, 7⟩ [] 2 3 [⟨1, 2, 3⟩] ⟨1, 72⟩
    (by decide) signRound2_101_eval

/-! ## Signing-run lemmas -/

section SignLemmas

variable {F : Type} [CommRing F] [Inv F] [DecidableEq F]

theorem sum_map_add {α : Type} (g h : α → F) (l : List α) :
    (l.map fun x => g x + h x).sum = (l.map g).sum + (l.map h).sum := by
  induction l with
  | nil => simp
  | cons x t ih =>
    rw [List.map_cons, List.map_cons, List.map_cons, List.sum_cons,
      List.sum_cons, List.sum_cons, ih]
    ring

theorem sum_map_mul_right {α : Type} (g : α → F) (a : F) (l : List α) :
    (l.map fun x => g x * a).sum = (l.map g).sum * a := by
  induction l with
  | nil => simp
  | cons x t ih =>
    rw [List.map_cons, List.map_cons, List.sum_cons, List.sum_cons, ih]
    ring

/-- Filtering out the signer and projecting to IDs commutes. -/
theorem filter_map_comm_id (comms : List (SigningCommitment F)) (x : F) :
    (comms.filter fun c => decide (c.id ≠ x)).map (fun c => c.id) =
      (comms.map fun c => c.id).filter fun y => decide (y ≠ x) := by
  induction comms with
  | nil => rfl
  | cons c t ih =>
    rw [List.map_cons]
    by_cases h : c.id = x
    · rw [List.filter_cons_of_neg (by simp [h]),
        List.filter_cons_of_neg (by simp [h]), ih]
    · rw [List.filter_cons_of_pos (by simpa using h),
        List.filter_cons_of_pos (by simpa using h), List.map_cons, ih]

theorem filter_map_comm_sub (comms : List (SigningCommitment F)) (x : F) :
    (comms.filter fun c => decide (c.id ≠ x)).map (fun c => c.id - x) =
      ((comms.map fun c => c.id).filter fun y => decide (y ≠ x)).map
        (fun y => y - x) := by
  rw [← filter_map_comm_id, List.map_map]
  rfl

/-- The Lagrange coefficient as a function of the commitment IDs alone. -/
theorem lagrangeCoefficient_ids (idv : F)
    (comms : List (SigningCommitment F)) :
    lagrangeCoefficient idv comms =
      ((comms.map fun c => c.id).filter fun y => decide (y ≠ idv)).prod *
      ((((comms.map fun c => c.id).filter fun y => decide (y ≠ idv)).map
        fun y => y - idv).prod)⁻¹ := by
  rw [lagrangeCoefficient_eq, filter_map_comm_id, filter_map_comm_sub]

theorem signCommitments_map_zip (selected : List (KeyShare F))
    (nonces : List (F × F)) :
    signCommitments selected nonces =
      (List.zip selected nonces).map
        fun p => (signRound1 p.1 p.2.1 p.2.2).2 :=
  zipWith_eq_map_zip _ _ _

/-- The IDs carried by the signing commitments are the signers' IDs. -/
theorem signCommitments_ids (selected : List (KeyShare F))
    (nonces : List (F × F)) (h : selected.length ≤ nonces.length) :
    (signCommitments selected nonces).map (fun c => c.id) =
      selected.map fun ks => ks.id := by
  rw [signCommitments_map_zip, List.map_map]
  have h3 : ((List.zip selected nonces).map
      ((fun c : SigningCommitment F => c.id) ∘
        fun p : KeyShare F × (F × F) => (signRound1 p.1 p.2.1 p.2.2).2)) =
      ((List.zip selected nonces).map Prod.fst).map fun ks => ks.id := by
    rw [List.map_map]
    rfl
  rw [h3, List.map_fst_zip _ _ h]

/-- `SignRound2` on the success path: the signer's commitment is in the
list and the challenge hash succeeds. -/
theorem signRound2_ok (f : FROST F) (share : KeyShare F)
    (nonce : SigningNonce F) (message : List ℕ)
    (comms : List (SigningCommitment F)) (c : F)
    (hhash : f.gm.hashToScalar
      [f.gm.pbytes (groupCommitment f.gm message comms),
       f.gm.pbytes share.groupKey, message] = some c)
    (cm : SigningCommitment F) (hcm : cm ∈ comms)
    (hcmid : cm.id = share.id) :
    signRound2 f share nonce message comms =
      .ok ⟨share.id,
        nonce.d + rhoOf f.gm message comms (f.gm.sbytes share.id) * nonce.e +
          lagrangeCoefficient share.id comms * share.secretKey * c⟩ := by
  have hlk : ((computeBindingFactors f.gm message comms).lookup
      (f.gm.sbytes share.id)).getD 0 =
      rhoOf f.gm message comms (f.gm.sbytes share.id) := by
    rw [computeBindingFactors_eq_map]
    have h2 := lookup_key_map (fun d => f.gm.sbytes d.id)
      (rhoOf f.gm message comms) comms cm hcm
    have h3 : (comms.map fun d =>
        (f.gm.sbytes d.id,
          rhoOf f.gm message comms (f.gm.sbytes d.id))).lookup
        (f.gm.sbytes cm.id) =
        some (rhoOf f.gm message comms (f.gm.sbytes cm.id)) := h2
    rw [hcmid] at h3
    rw [h3]
    rfl
  have hhash2 : f.gm.hashToScalar
      [f.gm.pbytes (groupCommitmentWith f.gm
        (computeBindingFactors f.gm message comms) comms),
       f.gm.pbytes share.groupKey, message] = some c := hhash
  show (match f.gm.hashToScalar
      [f.gm.pbytes (groupCommitmentWith f.gm
        (computeBindingFactors f.gm message comms) comms),
       f.gm.pbytes share.groupKey, message] with
    | none => (Except.error "hash-to-scalar failed" :
        Except String (SignatureShare F))
    | some c2 =>
      Except.ok ⟨share.id,
        nonce.d + ((computeBindingFactors f.gm message comms).lookup
          (f.gm.sbytes share.id)).getD 0 * nonce.e +
          lagrangeCoefficient share.id comms * share.secretKey * c2⟩) = _
  rw [hhash2, hlk]

end SignLemmas

/-! ## Claim C1 — signature correctness -/

/-- C1: after an honest DKG with per-participant polynomials of degree
`< t` (every coefficient list has length `t`), for every signer subset
`sel` with `|sel| ≥ t` (indices into the participant list, no duplicates)
and every message — including the empty one — if each signer runs
`SignRound1` and then `SignRound2` over the same commitment list in the
same order, the DKG run succeeds, the signing run succeeds, and
`Verify(message, Aggregate(message, commitments, shares), GroupKey)`
returns `true`.  The challenge hash is given as a hypothesis because the
abstract group hash is `Option`-valued; the Baby Jubjub instantiation
never fails. -/
theorem c1_sign_and_verify {F : Type} [Field F] [DecidableEq F]
    (f : FROST F) (ps : List (ℕ × List F)) (t : ℕ)
    (hlen : ∀ pr ∈ ps, pr.2.length = t)
    (hnd : (ps.map fun pr => (scalarFromInt pr.1 : F)).Nodup)
    (hinj : Function.Injective f.gm.sbytes)
    (sel : List ℕ) (hselnd : sel.Nodup)
    (hselbd : ∀ k ∈ sel, k < ps.length)
    (hsize : t ≤ sel.length)
    (nonces : List (F × F)) (hnlen : sel.length = nonces.length)
    (message : List ℕ) (c : F)
    (hhash : f.gm.hashToScalar
      [f.gm.pbytes (groupCommitment f.gm message
        (signCommitments (selectedShares f.gm ps sel) nonces)),
       f.gm.pbytes (groupKeyOf ps), message] = some c) :
    honestKeyShares f.gm ps = .ok (honestKeyShareList f.gm ps)
    ∧ ∃ sig : Signature F,
        signRun f message (selectedShares f.gm ps sel) nonces = .ok sig
        ∧ verify f message sig (groupKeyOf ps) = true := by
  classical
  have hKlen : (selectedShares f.gm ps sel).length = sel.length := by
    unfold selectedShares
    exact List.length_map _ _
  have hKn : (selectedShares f.gm ps sel).length ≤ nonces.length := by
    rw [hKlen, hnlen]
  have hKfields : ∀ ks ∈ selectedShares f.gm ps sel,
      ks.groupKey = groupKeyOf ps ∧
      ks.secretKey = (polyTotal ps).eval ks.id := by
    intro ks hks
    obtain ⟨k, hk, rfl⟩ := List.mem_map.mp hks
    show ((honestKeyShareList f.gm ps).getD k ⟨0, 0, 0, 0⟩).groupKey =
        groupKeyOf ps ∧
      ((honestKeyShareList f.gm ps).getD k ⟨0, 0, 0, 0⟩).secretKey =
        (polyTotal ps).eval
          ((honestKeyShareList f.gm ps).getD k ⟨0, 0, 0, 0⟩).id
    rw [honestKeyShareList_getD f.gm ps k (hselbd k hk)]
    exact ⟨finalize_groupKey _ ps,
      by rw [finalize_secret f.gm ps k (hselbd k hk)]; rfl⟩
  have hids : (signCommitments (selectedShares f.gm ps sel) nonces).map
      (fun cm => cm.id) =
      sel.map fun k => (scalarFromInt (ps.getD k (0, [])).1 : F) := by
    rw [signCommitments_ids _ _ hKn]
    unfold selectedShares
    rw [List.map_map]
    apply List.map_congr_left
    intro k hk
    show ((honestKeyShareList f.gm ps).getD k ⟨0, 0, 0, 0⟩).id = _
    rw [honestKeyShareList_getD f.gm ps k (hselbd k hk)]
    rfl
  have hidnd : (((signCommitments (selectedShares f.gm ps sel) nonces)).map
      (fun cm => cm.id)).Nodup := by
    rw [hids]
    apply List.Nodup.map_on ?_ hselnd
    intro k1 hk1 k2 hk2 heq
    have h1 : k1 < ps.length := hselbd k1 hk1
    have h2 : k2 < ps.length := hselbd k2 hk2
    have e₁ : (ps.map fun pr => (scalarFromInt pr.1 : F)).get
        ⟨k1, by simpa using h1⟩ =
        (scalarFromInt (ps.getD k1 (0, [])).1 : F) := by
      rw [List.get_eq_getElem, List.getElem_map,
        ← List.getD_eq_getElem ps (0, []) h1]
    have e₂ : (ps.map fun pr => (scalarFromInt pr.1 : F)).get
        ⟨k2, by simpa using h2⟩ =
        (scalarFromInt (ps.getD k2 (0, [])).1 : F) := by
      rw [List.get_eq_getElem, List.getElem_map,
        ← List.getD_eq_getElem ps (0, []) h2]
    rw [List.get_eq_getElem] at e₁ e₂
    exact (List.Nodup.getElem_inj_iff hnd).mp (by rw [e₁, e₂]; exact heq)
  have hdeg : (polyTotal ps).degree <
      ((((signCommitments (selectedShares f.gm ps sel) nonces)).map
        (fun cm => cm.id)).length : ℕ) := by
    apply lt_of_lt_of_le (polyTotal_degree_lt ps t hlen)
    rw [hids, List.length_map]
    exact_mod_cast hsize
  have hmapM : (List.zip (selectedShares f.gm ps sel) nonces).mapM
      (fun pr => signRound2 f pr.1 (signRound1 pr.1 pr.2.1 pr.2.2).1 message
        (signCommitments (selectedShares f.gm ps sel) nonces)) =
      .ok ((List.zip (selectedShares f.gm ps sel) nonces).map
        (fun pr => (⟨pr.1.id,
          pr.2.1 + rhoOf f.gm message
            (signCommitments (selectedShares f.gm ps sel) nonces)
            (f.gm.sbytes pr.1.id) * pr.2.2 +
          lagrangeCoefficient pr.1.id
            (signCommitments (selectedShares f.gm ps sel) nonces) *
            pr.1.secretKey * c⟩ : SignatureShare F))) := by
    apply mapM_ok_except
    intro pr hpr
    have hfst : pr.1 ∈ selectedShares f.gm ps sel := (List.of_mem_zip hpr).1
    have hgk : pr.1.groupKey = groupKeyOf ps := (hKfields pr.1 hfst).1
    have hh2 : f.gm.hashToScalar
        [f.gm.pbytes (groupCommitment f.gm message
          (signCommitments (selectedShares f.gm ps sel) nonces)),
         f.gm.pbytes pr.1.groupKey, message] = some c := by
      rw [hgk]
      exact hhash
    have hcm : (signRound1 pr.1 pr.2.1 pr.2.2).2 ∈
        signCommitments (selectedShares f.gm ps sel) nonces := by
      rw [signCommitments_map_zip]
      exact List.mem_map_of_mem _ hpr
    show signRound2 f pr.1 (signRound1 pr.1 pr.2.1 pr.2.2).1 message
        (signCommitments (selectedShares f.gm ps sel) nonces) =
      Except.ok ⟨pr.1.id,
        pr.2.1 + rhoOf f.gm message
          (signCommitments (selectedShares f.gm ps sel) nonces)
          (f.gm.sbytes pr.1.id) * pr.2.2 +
        lagrangeCoefficient pr.1.id
          (signCommitments (selectedShares f.gm ps sel) nonces) *
          pr.1.secretKey * c⟩
    exact signRound2_ok f pr.1 (signRound1 pr.1 pr.2.1 pr.2.2).1 message
      (signCommitments (selectedShares f.gm ps sel) nonces) c hh2
      (signRound1 pr.1 pr.2.1 pr.2.2).2 hcm rfl
  have hrun : signRun f message (selectedShares f.gm ps sel) nonces =
      .ok (aggregate f message
        (signCommitments (selectedShares f.gm ps sel) nonces)
        ((List.zip (selectedShares f.gm ps sel) nonces).map
          (fun pr => (⟨pr.1.id,
            pr.2.1 + rhoOf f.gm message
              (signCommitments (selectedShares f.gm ps sel) nonces)
              (f.gm.sbytes pr.1.id) * pr.2.2 +
            lagrangeCoefficient pr.1.id
              (signCommitments (selectedShares f.gm ps sel) nonces) *
              pr.1.secretKey * c⟩ : SignatureShare F)))) := by
    show ((List.zip (selectedShares f.gm ps sel) nonces).mapM
        (fun pr => signRound2 f pr.1 (signRound1 pr.1 pr.2.1 pr.2.2).1
          message (signCommitments (selectedShares f.gm ps sel) nonces))
        >>= fun shares => pure (aggregate f message
          (signCommitments (selectedShares f.gm ps sel) nonces) shares)) = _
    rw [hmapM]
    rfl
  refine ⟨honestKeyShares_eq f.gm ps hnd hinj, _, hrun, ?_⟩
  have hzfold : ((List.zip (selectedShares f.gm ps sel) nonces).map
      (fun pr => (⟨pr.1.id,
        pr.2.1 + rhoOf f.gm message
          (signCommitments (selectedShares f.gm ps sel) nonces)
          (f.gm.sbytes pr.1.id) * pr.2.2 +
        lagrangeCoefficient pr.1.id
          (signCommitments (selectedShares f.gm ps sel) nonces) *
          pr.1.secretKey * c⟩ : SignatureShare F))).foldl
      (fun acc s => acc + s.z) 0 =
      ((List.zip (selectedShares f.gm ps sel) nonces).map
        (fun pr =>
          pr.2.1 + rhoOf f.gm message
            (signCommitments (selectedShares f.gm ps sel) nonces)
            (f.gm.sbytes pr.1.id) * pr.2.2 +
          lagrangeCoefficient pr.1.id
            (signCommitments (selectedShares f.gm ps sel) nonces) *
            pr.1.secretKey * c)).sum := by
    have h4 := foldl_add_eq_sum (fun s : SignatureShare F => s.z)
      ((List.zip (selectedShares f.gm ps sel) nonces).map
        (fun pr => (⟨pr.1.id,
          pr.2.1 + rhoOf f.gm message
            (signCommitments (selectedShares f.gm ps sel) nonces)
            (f.gm.sbytes pr.1.id) * pr.2.2 +
          lagrangeCoefficient pr.1.id
            (signCommitments (selectedShares f.gm ps sel) nonces) *
            pr.1.secretKey * c⟩ : SignatureShare F))) 0
    rw [zero_add, List.map_map] at h4
    exact h4
  have hAgg : aggregate f message
      (signCommitments (selectedShares f.gm ps sel) nonces)
      ((List.zip (selectedShares f.gm ps sel) nonces).map
        (fun pr => (⟨pr.1.id,
          pr.2.1 + rhoOf f.gm message
            (signCommitments (selectedShares f.gm ps sel) nonces)
            (f.gm.sbytes pr.1.id) * pr.2.2 +
          lagrangeCoefficient pr.1.id
            (signCommitments (selectedShares f.gm ps sel) nonces) *
            pr.1.secretKey * c⟩ : SignatureShare F))) =
      ⟨groupCommitment f.gm message
        (signCommitments (selectedShares f.gm ps sel) nonces),
       ((List.zip (selectedShares f.gm ps sel) nonces).map
        (fun pr =>
          pr.2.1 + rhoOf f.gm message
            (signCommitments (selectedShares f.gm ps sel) nonces)
            (f.gm.sbytes pr.1.id) * pr.2.2 +
          lagrangeCoefficient pr.1.id
            (signCommitments (selectedShares f.gm ps sel) nonces) *
            pr.1.secretKey * c)).sum⟩ := by
    show (⟨groupCommitmentWith f.gm
        (computeBindingFactors f.gm message
          (signCommitments (selectedShares f.gm ps sel) nonces))
        (signCommitments (selectedShares f.gm ps sel) nonces),
      ((List.zip (selectedShares f.gm ps sel) nonces).map
        (fun pr => (⟨pr.1.id,
          pr.2.1 + rhoOf f.gm message
            (signCommitments (selectedShares f.gm ps sel) nonces)
            (f.gm.sbytes pr.1.id) * pr.2.2 +
          lagrangeCoefficient pr.1.id
            (signCommitments (selectedShares f.gm ps sel) nonces) *
            pr.1.secretKey * c⟩ : SignatureShare F))).foldl
        (fun acc s => acc + s.z) 0⟩ : Signature F) = _
    rw [hzfold]
    rfl
  rw [hAgg]
  have hver : verify f message
      (⟨groupCommitment f.gm message
        (signCommitments (selectedShares f.gm ps sel) nonces),
       ((List.zip (selectedShares f.gm ps sel) nonces).map
        (fun pr =>
          pr.2.1 + rhoOf f.gm message
            (signCommitments (selectedShares f.gm ps sel) nonces)
            (f.gm.sbytes pr.1.id) * pr.2.2 +
          lagrangeCoefficient pr.1.id
            (signCommitments (selectedShares f.gm ps sel) nonces) *
            pr.1.secretKey * c)).sum⟩ : Signature F)
      (groupKeyOf ps) =
      decide (((List.zip (selectedShares f.gm ps sel) nonces).map
        (fun pr =>
          pr.2.1 + rhoOf f.gm message
            (signCommitments (selectedShares f.gm ps sel) nonces)
            (f.gm.sbytes pr.1.id) * pr.2.2 +
          lagrangeCoefficient pr.1.id
            (signCommitments (selectedShares f.gm ps sel) nonces) *
            pr.1.secretKey * c)).sum * 1 =
        groupCommitment f.gm message
          (signCommitments (selectedShares f.gm ps sel) nonces) +
          c * groupKeyOf ps) := by
    show (match f.gm.hashToScalar
        [f.gm.pbytes (groupCommitment f.gm message
          (signCommitments (selectedShares f.gm ps sel) nonces)),
         f.gm.pbytes (groupKeyOf ps), message] with
      | none => false
      | some c2 =>
        decide (((List.zip (selectedShares f.gm ps sel) nonces).map
          (fun pr : KeyShare F × (F × F) =>
            pr.2.1 + rhoOf f.gm message
              (signCommitments (selectedShares f.gm ps sel) nonces)
              (f.gm.sbytes pr.1.id) * pr.2.2 +
            lagrangeCoefficient pr.1.id
              (signCommitments (selectedShares f.gm ps sel) nonces) *
              pr.1.secretKey * c)).sum * 1 =
          groupCommitment f.gm message
            (signCommitments (selectedShares f.gm ps sel) nonces) +
            c2 * groupKeyOf ps)) = _
    rw [hhash]
  rw [hver, decide_eq_true_eq]
  have hgen : ∀ g : List ℕ → F,
      (signCommitments (selectedShares f.gm ps sel) nonces).map
        (fun cm => cm.hidingPoint +
          g (f.gm.sbytes cm.id) * cm.bindingPoint) =
      (List.zip (selectedShares f.gm ps sel) nonces).map
        (fun pr => pr.2.1 * 1 +
          g (f.gm.sbytes pr.1.id) * (pr.2.2 * 1)) := by
    intro g
    rw [signCommitments_map_zip, List.map_map]
    rfl
  have hR2 : groupCommitment f.gm message
      (signCommitments (selectedShares f.gm ps sel) nonces) =
      ((List.zip (selectedShares f.gm ps sel) nonces).map
        (fun pr => pr.2.1 + rhoOf f.gm message
          (signCommitments (selectedShares f.gm ps sel) nonces)
          (f.gm.sbytes pr.1.id) * pr.2.2)).sum := by
    rw [groupCommitment_eq_sum]
    congr 1
    refine (hgen (rhoOf f.gm message
      (signCommitments (selectedShares f.gm ps sel) nonces))).trans ?_
    apply List.map_congr_left
    intro pr hpr
    show pr.2.1 * 1 + rhoOf f.gm message
        (signCommitments (selectedShares f.gm ps sel) nonces)
        (f.gm.sbytes pr.1.id) * (pr.2.2 * 1) =
      pr.2.1 + rhoOf f.gm message
        (signCommitments (selectedShares f.gm ps sel) nonces)
        (f.gm.sbytes pr.1.id) * pr.2.2
    ring
  have hY : groupKeyOf ps = (polyTotal ps).eval 0 := by
    rw [polyTotal_eval_zero]
    unfold groupKeyOf pointScalarMult pointGen
    rw [mul_one]
  rw [mul_one, sum_map_add, sum_map_mul_right]
  have hsec : (List.zip (selectedShares f.gm ps sel) nonces).map
      (fun pr => lagrangeCoefficient pr.1.id
        (signCommitments (selectedShares f.gm ps sel) nonces) *
        pr.1.secretKey) =
      (List.zip (selectedShares f.gm ps sel) nonces).map
      (fun pr => lagrangeCoefficient pr.1.id
        (signCommitments (selectedShares f.gm ps sel) nonces) *
        (polyTotal ps).eval pr.1.id) := by
    apply List.map_congr_left
    intro pr hpr
    show lagrangeCoefficient pr.1.id
        (signCommitments (selectedShares f.gm ps sel) nonces) *
        pr.1.secretKey = lagrangeCoefficient pr.1.id
        (signCommitments (selectedShares f.gm ps sel) nonces) *
        (polyTotal ps).eval pr.1.id
    rw [(hKfields pr.1 (List.of_mem_zip hpr).1).2]
  rw [hsec]
  have hp1 : (List.zip (selectedShares f.gm ps sel) nonces).map
      (fun pr => lagrangeCoefficient pr.1.id
        (signCommitments (selectedShares f.gm ps sel) nonces) *
        (polyTotal ps).eval pr.1.id) =
      ((List.zip (selectedShares f.gm ps sel) nonces).map Prod.fst).map
      (fun ks => lagrangeCoefficient ks.id
        (signCommitments (selectedShares f.gm ps sel) nonces) *
        (polyTotal ps).eval ks.id) := by
    rw [List.map_map]
    rfl
  rw [hp1, List.map_fst_zip _ _ hKn]
  have hp2 : (selectedShares f.gm ps sel).map
      (fun ks => lagrangeCoefficient ks.id
        (signCommitments (selectedShares f.gm ps sel) nonces) *
        (polyTotal ps).eval ks.id) =
      ((selectedShares f.gm ps sel).map fun ks => ks.id).map
      (fun x => lagrangeCoefficient x
        (signCommitments (selectedShares f.gm ps sel) nonces) *
        (polyTotal ps).eval x) := by
    rw [List.map_map]
    rfl
  rw [hp2, ← signCommitments_ids _ _ hKn]
  have hp3 : (((signCommitments (selectedShares f.gm ps sel) nonces)).map
      (fun cm => cm.id)).map
      (fun x => lagrangeCoefficient x
        (signCommitments (selectedShares f.gm ps sel) nonces) *
        (polyTotal ps).eval x) =
      (((signCommitments (selectedShares f.gm ps sel) nonces)).map
      (fun cm => cm.id)).map
      (fun x =>
        (((((signCommitments (selectedShares f.gm ps sel) nonces)).map
          (fun cm => cm.id)).filter fun y => decide (y ≠ x)).prod *
        ((((((signCommitments (selectedShares f.gm ps sel) nonces)).map
          (fun cm => cm.id)).filter fun y => decide (y ≠ x)).map
          fun y => y - x).prod)⁻¹) * (polyTotal ps).eval x) := by
    apply List.map_congr_left
    intro x hx
    show lagrangeCoefficient x
        (signCommitments (selectedShares f.gm ps sel) nonces) *
        (polyTotal ps).eval x =
      (((((signCommitments (selectedShares f.gm ps sel) nonces)).map
        (fun cm => cm.id)).filter fun y => decide (y ≠ x)).prod *
      ((((((signCommitments (selectedShares f.gm ps sel) nonces)).map
        (fun cm => cm.id)).filter fun y => decide (y ≠ x)).map
        fun y => y - x).prod)⁻¹) * (polyTotal ps).eval x
    rw [lagrangeCoefficient_ids]
  rw [hp3, lagrange_sum (polyTotal ps)
    (((signCommitments (selectedShares f.gm ps sel) nonces)).map
      (fun cm => cm.id)) hidnd hdeg]
  rw [hR2, hY]
  ring

/-- Witness for C1: a 3-participant honest DKG over the `ZMod 101` model
with `t = 2`, the signer subset `{0, 2}` (participants with IDs 1 and 3),
nonce pairs `(2, 3)` and `(4, 5)`, and the empty message. -/
theorem c1_sign_and_verify_witness :
    honestKeyShares frost101.gm [(1, [3, 4]), (2, [5, 6]), (3, [7, 9])] =
      .ok (honestKeyShareList frost101.gm
        [(1, [3, 4]), (2, [5, 6]), (3, [7, 9])])
    ∧ ∃ sig : Signature (ZMod 101),
        signRun frost101 []
          (selectedShares frost101.gm
            [(1, [3, 4]), (2, [5, 6]), (3, [7, 9])] [0, 2])
          [(2, 3), (4, 5)] = .ok sig
        ∧ verify frost101 [] sig
            (groupKeyOf [(1, [3, 4]), (2, [5, 6]), (3, [7, 9])]) = true :=
  c1_sign_and_verify frost101 [(1, [3, 4]), (2, [5, 6]), (3, [7, 9])] 2
    (by decide) (by decide) gm101_sbytes_injective
    [0, 2] (by decide) (by decide) (by decide)
    [(2, 3), (4, 5)] rfl [] 82 (by rfl)

end Fy
